import Mathlib

/-!
Verification of the attendance aggregation logic of `biotime_service.py`.

The development shallowly embeds the pure computation of the service:
the punch indexer, the daily classifier, the period aggregator
(`calculate_attendance_stats`), the simple range summary
(`build_attendance_summary`), and the report endpoints' period
computation and filtering.  Network fetches are modelled by passing the
fetched employee roster and transaction list as arguments; Python
exceptions raised by `datetime.strptime` on malformed timestamps are
modelled with `Except`.
-/

namespace Biotime

/-- Digit character table, the characters produced by `strftime`-style
zero padding (`%Y`, `%m`, `%d`, `%H`, `%M`, `%S` output only `'0'`–`'9'`). -/
def dChar : Nat → Char
  | 0 => '0' | 1 => '1' | 2 => '2' | 3 => '3' | 4 => '4'
  | 5 => '5' | 6 => '6' | 7 => '7' | 8 => '8' | _ => '9'

/-- Numeric value of a digit character, `none` on a non-digit;
models the digit classes of `strptime`'s matching. -/
def dVal (c : Char) : Option Nat :=
  if '0' ≤ c ∧ c ≤ '9' then some (c.toNat - 48) else none

/-- Lexicographic `≤` on char lists by code point; models Python string `<=`
(UTF-8 code-point order, which Python string comparison follows). -/
def charListLe : List Char → List Char → Bool
  | [], _ => true
  | _ :: _, [] => false
  | a :: as, b :: bs =>
    if a.toNat < b.toNat then true
    else if b.toNat < a.toNat then false
    else charListLe as bs

/-- String `≤`, models Python's `<=` on `str` used by `sorted`. -/
def strLe (a b : String) : Bool := charListLe a.data b.data

/-- Stable insertion into a sorted list: the new element goes before the
first existing element it is `le`-below-or-equal, hence after all earlier
equal keys. -/
def insertLe (le : α → α → Bool) (x : α) : List α → List α
  | [] => [x]
  | y :: ys => if le x y then x :: y :: ys else y :: insertLe le x ys

/-- Stable sort by a boolean comparator; models Python's stable `sorted`
and `list.sort`. -/
def sortByLe (le : α → α → Bool) : List α → List α
  | [] => []
  | x :: xs => insertLe le x (sortByLe le xs)

/-- Calendar date, the `date()` part of a Python `datetime`. -/
structure Date where
  y : Nat
  m : Nat
  d : Nat
  deriving DecidableEq

/-- Full second-precision instant, a Python `datetime`. -/
structure DT where
  y : Nat
  m : Nat
  d : Nat
  hh : Nat
  mi : Nat
  ss : Nat
  deriving DecidableEq

/-- Time of day, a Python `datetime.time`; the parsed form of a
`"HH:MM:SS"` configuration value such as `LATE_AFTER_TIME`. -/
structure TimeOfDay where
  hh : Nat
  mi : Nat
  ss : Nat
  deriving DecidableEq

def DT.date (t : DT) : Date := ⟨t.y, t.m, t.d⟩

/-- Whether a year is a Gregorian leap year (`calendar.isleap`,
as the `datetime` module computes month lengths). -/
def isLeap (y : Nat) : Bool := y % 4 == 0 && (y % 100 != 0 || y % 400 == 0)

/-- Number of days in a month of a year, as Python's `datetime` validates
day-of-month. Months outside 1..12 never arise from valid data. -/
def daysInMonth (y m : Nat) : Nat :=
  match m with
  | 2 => if isLeap y then 29 else 28
  | 4 => 30 | 6 => 30 | 9 => 30 | 11 => 30
  | _ => 31

/-- Calendar successor of a date; models `datetime + timedelta(days=1)`
restricted to the date part. -/
def nextDay (t : Date) : Date :=
  if t.d + 1 ≤ daysInMonth t.y t.m then ⟨t.y, t.m, t.d + 1⟩
  else if t.m + 1 ≤ 12 then ⟨t.y, t.m + 1, 1⟩
  else ⟨t.y + 1, 1, 1⟩

/-- Calendar predecessor of a date; models `datetime - timedelta(days=1)`
restricted to the date part. -/
def prevDay (t : Date) : Date :=
  if 2 ≤ t.d then ⟨t.y, t.m, t.d - 1⟩
  else if 2 ≤ t.m then ⟨t.y, t.m - 1, daysInMonth t.y (t.m - 1)⟩
  else ⟨t.y - 1, 12, 31⟩

/-- Lexicographic `≤` on dates; Python `date` comparison compares
(year, month, day) componentwise. -/
def dateLe (a b : Date) : Bool :=
  a.y < b.y || (a.y == b.y && (a.m < b.m || (a.m == b.m && a.d ≤ b.d)))

/-- Lexicographic `<` on dates. -/
def dateLt (a b : Date) : Bool :=
  a.y < b.y || (a.y == b.y && (a.m < b.m || (a.m == b.m && a.d < b.d)))

/-- Lexicographic `<` on instants; Python `datetime` comparison compares
(year, month, day, hour, minute, second) componentwise. -/
def dtLt (a b : DT) : Bool :=
  a.y < b.y || (a.y == b.y && (a.m < b.m || (a.m == b.m && (a.d < b.d ||
    (a.d == b.d && (a.hh < b.hh || (a.hh == b.hh && (a.mi < b.mi ||
      (a.mi == b.mi && a.ss < b.ss)))))))))

/-- Lexicographic `≤` on instants. -/
def dtLe (a b : DT) : Bool := !dtLt b a

/-- Days since 1970-01-01 in the proleptic Gregorian calendar
(the civil-from-date algorithm used to give `datetime` ordinal
semantics); used only to compute the day of week. -/
def daysFromCivil (yy mm dd : Int) : Int :=
  let y : Int := if mm ≤ 2 then yy - 1 else yy
  let era : Int := (if 0 ≤ y then y else y - 399) / 400
  let yoe : Int := y - era * 400
  let mp : Int := if mm ≤ 2 then mm + 9 else mm - 3
  let doy : Int := (153 * mp + 2) / 5 + dd - 1
  let doe : Int := yoe * 365 + yoe / 4 - yoe / 100 + doy
  era * 146097 + doe - 719468

/-- Day of week as Python's `datetime.weekday()`: Monday = 0 … Sunday = 6.
1970-01-01 was a Thursday (3). -/
def pyWeekday (t : Date) : Nat :=
  ((daysFromCivil (Int.ofNat t.y) (Int.ofNat t.m) (Int.ofNat t.d) + 3) % 7).toNat

/-- Two-digit zero-padded rendering, `strftime` `%m`/`%d`/`%H`/`%M`/`%S`. -/
def pad2 (n : Nat) : List Char := [dChar (n / 10 % 10), dChar (n % 10)]

/-- Four-digit zero-padded rendering, `strftime` `%Y`. -/
def pad4 (n : Nat) : List Char :=
  [dChar (n / 1000 % 10), dChar (n / 100 % 10), dChar (n / 10 % 10), dChar (n % 10)]

/-- Rendering of a date by `strftime("%Y-%m-%d")`. -/
def fmtDate (t : Date) : String :=
  ⟨pad4 t.y ++ '-' :: pad2 t.m ++ '-' :: pad2 t.d⟩

/-- Rendering of an instant by `strftime("%Y-%m-%d %H:%M:%S")`. -/
def fmtDT (t : DT) : String :=
  ⟨pad4 t.y ++ '-' :: pad2 t.m ++ '-' :: pad2 t.d ++ ' ' ::
    pad2 t.hh ++ ':' :: pad2 t.mi ++ ':' :: pad2 t.ss⟩

/-- Piece of a string before its first space: `s.split(" ")[0]`
as used to extract the date part of a punch timestamp. -/
def splitDate (s : String) : String := ⟨s.data.takeWhile (fun c => c ≠ ' ')⟩

/-- Field of one or two digits as matched by `strptime`'s regular
expressions (for example `%m` is `1[0-2]|0[1-9]|[1-9]`): the two-digit
reading is preferred when its value is admissible, otherwise a single
digit is read; returns the value and the remaining characters. For this
fixed format the local preference coincides with full regex
backtracking, because each field is followed by a non-digit separator
or the end of the string. -/
def pField (ok2 : Nat → Bool) (ok1 : Nat → Bool) : List Char → Option (Nat × List Char)
  | a :: b :: rest =>
    match dVal a, dVal b with
    | some x, some z =>
      if ok2 (10 * x + z) then some (10 * x + z, rest)
      else if ok1 x then some (x, b :: rest) else none
    | some x, none => if ok1 x then some (x, b :: rest) else none
    | none, _ => none
  | [a] => match dVal a with
    | some x => if ok1 x then some (x, []) else none
    | none => none
  | [] => none

/-- Literal separator of the `strptime` format string: consume one
expected character. -/
def expectChar (c : Char) : List Char → Option (List Char)
  | x :: rest => if x = c then some rest else none
  | [] => none

/-- Exactly four digits, the `%Y` directive of `_strptime`. -/
def take4Digits : List Char → Option (Nat × List Char)
  | a :: b :: c :: d :: rest =>
    match dVal a, dVal b, dVal c, dVal d with
    | some x1, some x2, some x3, some x4 =>
      some (1000 * x1 + 100 * x2 + 10 * x3 + x4, rest)
    | _, _, _, _ => none
  | _ => none

/-- Parse of `"%Y-%m-%d %H:%M:%S"` by `datetime.strptime` followed by the
`datetime` constructor's range validation: exactly four year digits, the
field character classes of `_strptime` (month 1–12, day 1–31, hour 0–23,
minute 0–59, second 0–61 at the regex level), the whole string consumed,
and then year ≥ 1, day within the month and second ≤ 59 enforced by the
constructor. Returns `none` where Python raises `ValueError`. -/
def parseTS (s : String) : Option DT := do
  let (y, r0) ← take4Digits s.data
  let r1 ← expectChar '-' r0
  let (mo, r2) ← pField (fun v => 1 ≤ v && v ≤ 12) (fun v => 1 ≤ v) r1
  let r3 ← expectChar '-' r2
  let (dy, r4) ← pField (fun v => 1 ≤ v && v ≤ 31) (fun v => 1 ≤ v) r3
  let r5 ← expectChar ' ' r4
  let (h, r6) ← pField (fun v => v ≤ 23) (fun _ => true) r5
  let r7 ← expectChar ':' r6
  let (mi, r8) ← pField (fun v => v ≤ 59) (fun _ => true) r7
  let r9 ← expectChar ':' r8
  let (se, r10) ← pField (fun v => v ≤ 61) (fun _ => true) r9
  if r10.isEmpty ∧ 1 ≤ y ∧ dy ≤ daysInMonth y mo ∧ se ≤ 59 then
    some ⟨y, mo, dy, h, mi, se⟩
  else none

/-- Parse of `"%H:%M:%S"` by `datetime.strptime(...).time()`, the form of
the `LATE_AFTER_TIME` / `EARLY_LEAVE_TIME` configuration values. -/
def parseTime (s : String) : Option TimeOfDay := do
  let (h, r1) ← pField (fun v => v ≤ 23) (fun _ => true) s.data
  let r2 ← expectChar ':' r1
  let (mi, r3) ← pField (fun v => v ≤ 59) (fun _ => true) r2
  let r4 ← expectChar ':' r3
  let (se, r5) ← pField (fun v => v ≤ 61) (fun _ => true) r4
  if r5.isEmpty ∧ se ≤ 59 then some ⟨h, mi, se⟩ else none

/-- Absolute second count of an instant (days since 1970-01-01 times
86400 plus the second of the day); `datetime` subtraction produces the
`timedelta` whose total seconds is the difference of these. -/
def toSeconds (t : DT) : Int :=
  daysFromCivil (Int.ofNat t.y) (Int.ofNat t.m) (Int.ofNat t.d) * 86400
    + (Int.ofNat t.hh * 3600 + Int.ofNat t.mi * 60 + Int.ofNat t.ss)

/-- Decimal rendering of a nonnegative integer, least significant digit
assembled last. -/
def natDigits (n : Nat) : List Char :=
  (Nat.toDigits 10 n)

/-- Rendering of a `timedelta` of a whole number of seconds by Python's
`str`: normalised to `d` days plus `0 ≤ r < 86400` seconds (floor
division, so a negative delta gets negative days), printed as
`"[D day[s], ]H:MM:SS"` with unpadded hours. -/
def strTimedelta (secs : Int) : String :=
  let d : Int := secs / 86400
  let r : Nat := (secs % 86400).toNat
  let hms : List Char :=
    natDigits (r / 3600) ++ ':' :: pad2 (r / 60 % 60) ++ ':' :: pad2 (r % 60)
  if d == 0 then ⟨hms⟩
  else if d == 1 || d == -1 then ⟨(toString d).data ++ " day, ".data ++ hms⟩
  else ⟨(toString d).data ++ " days, ".data ++ hms⟩

/-- Raw punch record as fetched from `/iclock/api/transactions/`; a field
the upstream omitted (`tx.get(...)` returning `None`) is modelled by `""`,
which is falsy in Python exactly like `None`. -/
structure Tx where
  emp_code : String
  punch_time : String
  deriving DecidableEq

/-- Employee roster record as fetched from `/personnel/api/employees/`. -/
structure Employee where
  emp_code : String
  first_name : String
  last_name : String
  deriving DecidableEq

/-- Entry of `late_details` built by `calculate_attendance_stats`. -/
structure LateDetail where
  date : String
  punch_time : String
  late_by : String
  deriving DecidableEq

/-- Per-employee counters and detail lists accumulated by the day loop of
`calculate_attendance_stats` (the `stats` sub-dict of a report row). -/
structure Stats where
  work_days_required : Nat
  present : Nat
  late : Nat
  absent : Nat
  late_details : List LateDetail
  absent_details : List String
  deriving DecidableEq

/-- Row of the list returned by `calculate_attendance_stats`. -/
structure Report where
  emp_code : String
  first_name : String
  last_name : String
  stats : Stats
  deriving DecidableEq

/-- Python truthiness of an optional string field: `None` and `""` are falsy. -/
def truthy (s : String) : Bool := s != ""

/-- Empty punch index (`defaultdict(lambda: defaultdict(list))` before any
insertion), viewed as its lookup function `emp_code → date_str → punches`. -/
def emptyPM : String → String → List Tx := fun _ _ => []

/-- Append one transaction to its `punches_map[emp_code][date_str]` bucket. -/
def addTx (m : String → String → List Tx) (tx : Tx) : String → String → List Tx :=
  fun c d =>
    if c = tx.emp_code ∧ d = splitDate tx.punch_time then m c d ++ [tx] else m c d

/-- Punch indexer of `calculate_attendance_stats` step 2: records with a
falsy `emp_code` or `punch_time` are skipped, every other record is
appended to the bucket of its employee and of the date prefix of its
timestamp. The resulting `defaultdict` is viewed as its lookup function,
so `pm.get(code, {}).get(d_str, [])` is plain application. -/
def indexPunches (txs : List Tx) : String → String → List Tx :=
  txs.foldl
    (fun m tx => if truthy tx.emp_code && truthy tx.punch_time then addTx m tx else m)
    emptyPM

/-- Zero-initialised counters at the top of the per-employee loop. -/
def initStats : Stats := ⟨0, 0, 0, 0, [], []⟩

/-- Body of the per-day loop of `calculate_attendance_stats` for one
employee: the daily classifier. A `ValueError` of `strptime` on the first
punch is an `Except.error`; the unreachable indexing of an empty sorted
list (guarded by `has_punches`) is likewise an error, as Python would
raise. -/
def dayStep (lateTime : TimeOfDay) (pm : String → String → List Tx) (code : String)
    (st : Stats) (day : Date) : Except String Stats :=
  let d_str := fmtDate day
  let is_weekend := pyWeekday day == 6
  let daily_txs := pm code d_str
  let has_punches := !daily_txs.isEmpty
  if is_weekend then
    if has_punches then .ok { st with present := st.present + 1 } else .ok st
  else
    let st := { st with work_days_required := st.work_days_required + 1 }
    if !has_punches then
      .ok { st with absent := st.absent + 1,
                    absent_details := st.absent_details ++ [d_str] }
    else
      let st := { st with present := st.present + 1 }
      let sorted_punches := sortByLe (fun a b => strLe a.punch_time b.punch_time) daily_txs
      match sorted_punches with
      | [] => .error "list index out of range"
      | first :: _ =>
        match parseTS first.punch_time with
        | none => .error ("time data " ++ first.punch_time ++ " does not match format")
        | some fp =>
          let threshold : DT := ⟨day.y, day.m, day.d, lateTime.hh, lateTime.mi, lateTime.ss⟩
          if dtLt threshold fp then
            .ok { st with
                  late := st.late + 1
                  late_details := st.late_details ++
                    [⟨d_str, first.punch_time, strTimedelta (toSeconds fp - toSeconds threshold)⟩] }
          else .ok st

/-- Day loop of `calculate_attendance_stats` for one employee over the
generated date list. -/
def calcEmployeeStats (lateTime : TimeOfDay) (pm : String → String → List Tx)
    (code : String) (dates : List Date) : Except String Stats :=
  dates.foldlM (dayStep lateTime pm code) initStats

/-- Report row assembled at the end of one employee's loop iteration. -/
def mkReport (emp : Employee) (st : Stats) : Report :=
  ⟨emp.emp_code, emp.first_name, emp.last_name, st⟩

/-- Employee loop of `calculate_attendance_stats`: employees with a falsy
code are skipped; an exception in one employee's day loop aborts the whole
computation. -/
def calcReports (lateTime : TimeOfDay) (pm : String → String → List Tx)
    (dates : List Date) : List Employee → Except String (List Report)
  | [] => .ok []
  | emp :: rest =>
    if emp.emp_code = "" then calcReports lateTime pm dates rest
    else do
      let st ← calcEmployeeStats lateTime pm emp.emp_code dates
      let others ← calcReports lateTime pm dates rest
      .ok (mkReport emp st :: others)

/-- Upper bound on the iterations of the date-generation `while` loop: the
loop advances one calendar day per step and stops once the current date
exceeds `stop`, which happens within 372 steps per calendar year spanned. -/
def rangeFuel (s e : Date) : Nat := (e.y + 2 - s.y) * 372

/-- One unfolding of `while curr.date() <= end_dt.date()`. -/
def dateRangeAux : Nat → Date → Date → List Date
  | 0, _, _ => []
  | fuel + 1, curr, stop =>
    if dateLe curr stop then curr :: dateRangeAux fuel (nextDay curr) stop else []

/-- Date list generated in step 4 of `calculate_attendance_stats`:
`start` through `stop` inclusive in one-day steps (only the date part of
the loop variable is ever used). -/
def dateRange (s e : Date) : List Date := dateRangeAux (rangeFuel s e) s e

/-- Core period aggregator `calculate_attendance_stats`, with the fetched
roster and transactions passed in and the configured late threshold
already parsed (the module parses `LATE_AFTER_TIME` at startup). -/
def calculate_attendance_stats (lateTime : TimeOfDay) (employees : List Employee)
    (transactions : List Tx) (start_dt end_dt : DT) : Except String (List Report) := do
  let punches_map := indexPunches transactions
  let all_dates := dateRange start_dt.date end_dt.date
  let report_data ← calcReports lateTime punches_map all_dates employees
  .ok (sortByLe (fun a b => strLe a.emp_code b.emp_code) report_data)

/-- Filter shared by the three report endpoints: keep employees with
`late > 0 or absent > 0`. -/
def reportFilter (l : List Report) : List Report :=
  l.filter (fun d => decide (0 < d.stats.late) || decide (0 < d.stats.absent))

/-- Subtraction of `timedelta(seconds=1)` from an instant. -/
def subOneSec (t : DT) : DT :=
  if 1 ≤ t.ss then ⟨t.y, t.m, t.d, t.hh, t.mi, t.ss - 1⟩
  else if 1 ≤ t.mi then ⟨t.y, t.m, t.d, t.hh, t.mi - 1, 59⟩
  else if 1 ≤ t.hh then ⟨t.y, t.m, t.d, t.hh - 1, 59, 59⟩
  else
    let p := prevDay t.date
    ⟨p.y, p.m, p.d, 23, 59, 59⟩

/-- Python truthiness of the optional integer query parameters. -/
def truthyOpt : Option Nat → Bool
  | none => false
  | some n => n != 0

/-- Period computation of `/attendance/report/monthly`: a truthy explicit
month and year give the full month (first of the month through one second
before the first of the next month), otherwise month-to-date. -/
def monthlyPeriod (now : DT) (month year : Option Nat) : DT × DT :=
  if truthyOpt month && truthyOpt year then
    let m := month.getD 0
    let y := year.getD 0
    let start_dt : DT := ⟨y, m, 1, 0, 0, 0⟩
    let next_month : DT := if m == 12 then ⟨y + 1, 1, 1, 0, 0, 0⟩ else ⟨y, m + 1, 1, 0, 0, 0⟩
    (start_dt, subOneSec next_month)
  else
    (⟨now.y, now.m, 1, 0, 0, 0⟩, now)

/-- Endpoint `/attendance/report/monthly` (data list): aggregate over the
computed period, then filter to late-or-absent employees. -/
def attendance_report_monthly (lateTime : TimeOfDay) (employees : List Employee)
    (transactions : List Tx) (now : DT) (month year : Option Nat) :
    Except String (List Report) := do
  let p := monthlyPeriod now month year
  let all_data ← calculate_attendance_stats lateTime employees transactions p.1 p.2
  .ok (reportFilter all_data)

/-- Iterated calendar predecessor, `now - timedelta(days=k)` on dates. -/
def prevDays : Nat → Date → Date
  | 0, t => t
  | n + 1, t => prevDays n (prevDay t)

/-- Period computation of `/attendance/report/weekly`: this week's Monday
at midnight through now. -/
def weeklyPeriod (now : DT) : DT × DT :=
  let monday := prevDays (pyWeekday now.date) now.date
  (⟨monday.y, monday.m, monday.d, 0, 0, 0⟩, now)

/-- Endpoint `/attendance/report/weekly` (data list). -/
def attendance_report_weekly (lateTime : TimeOfDay) (employees : List Employee)
    (transactions : List Tx) (now : DT) : Except String (List Report) := do
  let p := weeklyPeriod now
  let all_data ← calculate_attendance_stats lateTime employees transactions p.1 p.2
  .ok (reportFilter all_data)

/-- Period computation of `/attendance/report/monthly-previous`: first of
the previous month through one second before the first of this month. -/
def monthlyPrevPeriod (now : DT) : DT × DT :=
  let this_month_first : DT := ⟨now.y, now.m, 1, 0, 0, 0⟩
  let prev_month_last := subOneSec this_month_first
  (⟨prev_month_last.y, prev_month_last.m, 1, 0, 0, 0⟩, prev_month_last)

/-- Endpoint `/attendance/report/monthly-previous` (data list): the
completed previous calendar month. -/
def attendance_report_monthly_previous (lateTime : TimeOfDay) (employees : List Employee)
    (transactions : List Tx) (now : DT) : Except String (List Report) := do
  let p := monthlyPrevPeriod now
  let all_data ← calculate_attendance_stats lateTime employees transactions p.1 p.2
  .ok (reportFilter all_data)

/-- Row of the simple range summary built by `build_attendance_summary`. -/
structure SummaryRow where
  emp_code : String
  first_punch_time : String
  last_punch_time : String
  total_punches : Nat
  deriving DecidableEq

/-- Append a record to its group, `grouped[rec["emp_code"]].append(rec)`
on an insertion-ordered dict viewed as an association list. -/
def addToGroup : List (String × List Tx) → Tx → List (String × List Tx)
  | [], rec => [(rec.emp_code, [rec])]
  | (c, l) :: rest, rec =>
    if c = rec.emp_code then (c, l ++ [rec]) :: rest else (c, l) :: addToGroup rest rec

/-- Grouping loop of `build_attendance_summary`; unlike the stats indexer
it does not skip falsy fields. -/
def groupByCode (records : List Tx) : List (String × List Tx) :=
  records.foldl addToGroup []

/-- Per-group body of `build_attendance_summary`: sort the group's punches
by parsed timestamp (Python computes the sort key of every element, so any
malformed timestamp raises), then read off first/last punch and the count. -/
def buildSummaryRow (ep : String × List Tx) : Except String SummaryRow := do
  let keyed ← ep.2.mapM (fun tx =>
    match parseTS tx.punch_time with
    | some dt => Except.ok (dt, tx)
    | none => Except.error ("time data " ++ tx.punch_time ++ " does not match format"))
  match sortByLe (fun a b => dtLe a.1 b.1) keyed with
  | [] => .error "list index out of range"
  | first :: rest =>
    .ok ⟨ep.1, first.2.punch_time,
         ((first :: rest).getLast (List.cons_ne_nil _ _)).2.punch_time,
         (first :: rest).length⟩

/-- Summary builder `build_attendance_summary` (data list), with the
fetched transactions passed in. -/
def build_attendance_summary (records : List Tx) : Except String (List SummaryRow) := do
  let summary ← (groupByCode records).mapM buildSummaryRow
  .ok (sortByLe (fun a b => strLe a.emp_code b.emp_code) summary)

/-- Filtering loop of `/attendance/today/late`: keep summary rows whose
parsed first punch is strictly after today's late threshold. -/
def lateRows (today : Date) (lateTime : TimeOfDay) (rows : List SummaryRow) :
    Except String (List SummaryRow) :=
  let thr : DT := ⟨today.y, today.m, today.d, lateTime.hh, lateTime.mi, lateTime.ss⟩
  rows.foldlM
    (fun acc row =>
      match parseTS row.first_punch_time with
      | none => .error ("time data " ++ row.first_punch_time ++ " does not match format")
      | some fp => .ok (if dtLt thr fp then acc ++ [row] else acc))
    []

/-! ### Auxiliary vocabulary used by the theorem statements -/

/-- Exactly two digits, the canonical zero-padded month/day field. -/
def take2Digits : List Char → Option (Nat × List Char)
  | a :: b :: rest =>
    match dVal a, dVal b with
    | some x1, some x2 => some (10 * x1 + x2, rest)
    | _, _ => none
  | _ => none

/-- Parse of a canonical `"YYYY-MM-DD"` date string (the exact shape
`fmtDate` produces), used to state that detail entries are date-ascending. -/
def parseDateStr (s : String) : Option Date := do
  let (y, r0) ← take4Digits s.data
  let r1 ← expectChar '-' r0
  let (mo, r2) ← take2Digits r1
  let r3 ← expectChar '-' r2
  let (dy, r4) ← take2Digits r3
  if r4.isEmpty then some ⟨y, mo, dy⟩ else none

/-- Two date strings in strictly ascending date order. -/
def dateStrLt (a b : String) : Prop :=
  ∃ x y, parseDateStr a = some x ∧ parseDateStr b = some y ∧ dateLt x y = true

/-- Number of non-Sunday days in a date list. -/
def countWeekdays (dates : List Date) : Nat :=
  dates.countP (fun d => !(pyWeekday d == 6))

/-- Number of Sundays in a date list on which the employee has at least
one indexed punch. -/
def weekendWorked (pm : String → String → List Tx) (code : String)
    (dates : List Date) : Nat :=
  dates.countP (fun d => pyWeekday d == 6 && !(pm code (fmtDate d)).isEmpty)

/-- Validity of a calendar date as `datetime` enforces it, with the year
within `strftime`'s four digits. -/
def validDate (t : Date) : Prop :=
  1 ≤ t.y ∧ t.y ≤ 9999 ∧ 1 ≤ t.m ∧ t.m ≤ 12 ∧ 1 ≤ t.d ∧ t.d ≤ daysInMonth t.y t.m

/-- Bounds under which an instant renders to a canonical
`"YYYY-MM-DD HH:MM:SS"` string. -/
def validDT (t : DT) : Prop :=
  validDate t.date ∧ t.hh ≤ 23 ∧ t.mi ≤ 59 ∧ t.ss ≤ 59

/-! ### Generic facts about the stable sort -/

theorem insertLe_perm (le : α → α → Bool) (x : α) (l : List α) :
    List.Perm (insertLe le x l) (x :: l) := by
  induction l with
  | nil => simp [insertLe]
  | cons y ys ih =>
    unfold insertLe
    by_cases h : le x y = true
    · rw [if_pos h]
    · rw [if_neg h]
      exact (ih.cons y).trans (List.Perm.swap x y ys)

theorem sortByLe_perm (le : α → α → Bool) (l : List α) :
    List.Perm (sortByLe le l) l := by
  induction l with
  | nil => simp [sortByLe]
  | cons x xs ih =>
    unfold sortByLe
    exact (insertLe_perm le x (sortByLe le xs)).trans (ih.cons x)

theorem mem_sortByLe (le : α → α → Bool) (l : List α) (a : α) :
    a ∈ sortByLe le l ↔ a ∈ l :=
  (sortByLe_perm le l).mem_iff

theorem length_sortByLe (le : α → α → Bool) (l : List α) :
    (sortByLe le l).length = l.length :=
  (sortByLe_perm le l).length_eq

theorem pairwise_insertLe (le : α → α → Bool)
    (total : ∀ a b, le a b = true ∨ le b a = true)
    (htrans : ∀ a b c, le a b = true → le b c = true → le a c = true)
    (x : α) (l : List α) (h : List.Pairwise (fun a b => le a b = true) l) :
    List.Pairwise (fun a b => le a b = true) (insertLe le x l) := by
  induction l with
  | nil => simp [insertLe]
  | cons y ys ih =>
    cases h with
    | cons hy hys =>
      unfold insertLe
      by_cases hxy : le x y = true
      · rw [if_pos hxy]
        refine List.Pairwise.cons ?_ (List.Pairwise.cons hy hys)
        intro z hz
        rcases List.mem_cons.mp hz with hz | hz
        · exact hz ▸ hxy
        · exact htrans x y z hxy (hy _ hz)
      · rw [if_neg hxy]
        refine List.Pairwise.cons ?_ (ih hys)
        intro z hz
        have hz' := (insertLe_perm le x ys).mem_iff.mp hz
        rcases List.mem_cons.mp hz' with hz' | hz'
        · subst hz'
          rcases total y z with h' | h'
          · exact h'
          · exact absurd h' hxy
        · exact hy _ hz'

theorem pairwise_sortByLe (le : α → α → Bool)
    (total : ∀ a b, le a b = true ∨ le b a = true)
    (htrans : ∀ a b c, le a b = true → le b c = true → le a c = true)
    (l : List α) :
    List.Pairwise (fun a b => le a b = true) (sortByLe le l) := by
  induction l with
  | nil => simp [sortByLe]
  | cons x xs ih =>
    exact pairwise_insertLe le total htrans x (sortByLe le xs) ih

/-- Head of the stable sort is a `le`-least element of the list. -/
theorem sortByLe_head_min (le : α → α → Bool)
    (total : ∀ a b, le a b = true ∨ le b a = true)
    (htrans : ∀ a b c, le a b = true → le b c = true → le a c = true)
    (l : List α) (x : α) (rest : List α) (h : sortByLe le l = x :: rest) :
    x ∈ l ∧ ∀ y ∈ l, le x y = true := by
  have hper := sortByLe_perm le l
  rw [h] at hper
  constructor
  · exact hper.mem_iff.mp (List.mem_cons_self x rest)
  · intro y hy
    have hy' := hper.mem_iff.mpr hy
    rcases List.mem_cons.mp hy' with hy' | hy'
    · subst hy'
      rcases total y y with h' | h' <;> exact h'
    · have hp := pairwise_sortByLe le total htrans l
      rw [h] at hp
      cases hp with
      | cons h1 _ => exact h1 _ hy'

/-! ### Properties of the code-point comparison -/

theorem charListLe_total (a b : List Char) :
    charListLe a b = true ∨ charListLe b a = true := by
  induction a generalizing b with
  | nil => left; simp [charListLe]
  | cons x xs ih =>
    cases b with
    | nil => right; simp [charListLe]
    | cons y ys =>
      by_cases h1 : x.toNat < y.toNat
      · left; simp [charListLe, h1]
      · by_cases h2 : y.toNat < x.toNat
        · right; simp [charListLe, h2]
        · rcases ih ys with h | h
          · left; simp [charListLe, h1, h2, h]
          · right; simp [charListLe, h1, h2, h]

theorem charListLe_trans (a b c : List Char)
    (hab : charListLe a b = true) (hbc : charListLe b c = true) :
    charListLe a c = true := by
  induction a generalizing b c with
  | nil => simp [charListLe]
  | cons x xs ih =>
    cases b with
    | nil => simp [charListLe] at hab
    | cons y ys =>
      cases c with
      | nil => simp [charListLe] at hbc
      | cons z zs =>
        simp only [charListLe] at hab hbc ⊢
        rcases Nat.lt_trichotomy x.toNat y.toNat with h1 | h1 | h1
        · rcases Nat.lt_trichotomy y.toNat z.toNat with h2 | h2 | h2
          · rw [if_pos (by omega)]
          · rw [if_pos (by omega)]
          · rw [if_neg (by omega), if_pos (by omega)] at hbc
            simp at hbc
        · rw [if_neg (by omega), if_neg (by omega)] at hab
          rcases Nat.lt_trichotomy y.toNat z.toNat with h2 | h2 | h2
          · rw [if_pos (by omega)]
          · rw [if_neg (by omega), if_neg (by omega)] at hbc ⊢
            exact ih _ _ hab hbc
          · rw [if_neg (by omega), if_pos (by omega)] at hbc
            simp at hbc
        · rw [if_neg (by omega), if_pos (by omega)] at hab
          simp at hab

theorem charListLe_antisymm (a b : List Char)
    (hab : charListLe a b = true) (hba : charListLe b a = true) : a = b := by
  induction a generalizing b with
  | nil =>
    cases b with
    | nil => rfl
    | cons y ys => simp [charListLe] at hba
  | cons x xs ih =>
    cases b with
    | nil => simp [charListLe] at hab
    | cons y ys =>
      simp only [charListLe] at hab hba
      rcases Nat.lt_trichotomy x.toNat y.toNat with h1 | h1 | h1
      · rw [if_neg (by omega), if_pos (by omega)] at hba
        simp at hba
      · have hx : x = y := Char.ext (UInt32.ext h1)
        subst hx
        rw [if_neg (by omega), if_neg (by omega)] at hab hba
        exact congrArg (x :: ·) (ih _ hab hba)
      · rw [if_neg (by omega), if_pos (by omega)] at hab
        simp at hab

theorem strLe_total (a b : String) : strLe a b = true ∨ strLe b a = true :=
  charListLe_total a.data b.data

theorem strLe_trans (a b c : String) (hab : strLe a b = true)
    (hbc : strLe b c = true) : strLe a c = true :=
  charListLe_trans a.data b.data c.data hab hbc

theorem strLe_antisymm (a b : String) (hab : strLe a b = true)
    (hba : strLe b a = true) : a = b := by
  cases a; cases b
  exact congrArg String.mk (charListLe_antisymm _ _ hab hba)

/-! ### Plumbing for the `Except` monad -/

theorem except_ok_bind {ε α β : Type} (a : α) (f : α → Except ε β) :
    (Except.ok a >>= f) = f a := rfl

theorem except_error_bind {ε α β : Type} (e : ε) (f : α → Except ε β) :
    ((Except.error e : Except ε α) >>= f) = Except.error e := rfl

/-- A successful `foldlM` cannot contain an element on which the step
function fails for every state. -/
theorem foldlM_error_of_exists {ε α β : Type} (f : β → α → Except ε β)
    (l : List α) (x : α) (hx : x ∈ l)
    (hfail : ∀ st : β, ∃ e, f st x = .error e) :
    ∀ init : β, ∃ e, List.foldlM f init l = .error e := by
  induction l with
  | nil => cases hx
  | cons y ys ih =>
    intro init
    rw [List.foldlM_cons]
    rcases List.mem_cons.mp hx with hx' | hx'
    · subst hx'
      obtain ⟨e, he⟩ := hfail init
      exact ⟨e, by rw [he, except_error_bind]⟩
    · cases hstep : f init y with
      | error e => exact ⟨e, by rw [except_error_bind]⟩
      | ok st' =>
        obtain ⟨e, he⟩ := ih hx' st'
        exact ⟨e, by rw [except_ok_bind, he]⟩

/-! ### Properties of the instant and date comparisons -/

theorem dtLt_iff (a b : DT) : dtLt a b = true ↔
    (a.y < b.y ∨ (a.y = b.y ∧ (a.m < b.m ∨ (a.m = b.m ∧ (a.d < b.d ∨
      (a.d = b.d ∧ (a.hh < b.hh ∨ (a.hh = b.hh ∧ (a.mi < b.mi ∨
        (a.mi = b.mi ∧ a.ss < b.ss)))))))))) := by
  simp [dtLt]

theorem dtLe_iff (a b : DT) : dtLe a b = true ↔ ¬ (dtLt b a = true) := by
  simp [dtLe]

theorem dtLe_total (a b : DT) : dtLe a b = true ∨ dtLe b a = true := by
  simp only [dtLe_iff, dtLt_iff]
  omega

theorem dtLe_trans (a b c : DT) (hab : dtLe a b = true) (hbc : dtLe b c = true) :
    dtLe a c = true := by
  simp only [dtLe_iff, dtLt_iff] at *
  omega

theorem dateLt_iff (a b : Date) : dateLt a b = true ↔
    (a.y < b.y ∨ (a.y = b.y ∧ (a.m < b.m ∨ (a.m = b.m ∧ a.d < b.d)))) := by
  simp [dateLt]

theorem dateLe_iff (a b : Date) : dateLe a b = true ↔
    (a.y < b.y ∨ (a.y = b.y ∧ (a.m < b.m ∨ (a.m = b.m ∧ a.d ≤ b.d)))) := by
  simp [dateLe]

theorem dateLt_trans (a b c : Date) (hab : dateLt a b = true)
    (hbc : dateLt b c = true) : dateLt a c = true := by
  simp only [dateLt_iff] at *
  omega

theorem dateLt_of_lt_of_le (a b c : Date) (hab : dateLt a b = true)
    (hbc : dateLe b c = true) : dateLt a c = true := by
  simp only [dateLt_iff, dateLe_iff] at *
  omega

/-! ### Digit and padding facts -/

theorem dVal_dChar (n : Nat) (h : n ≤ 9) : dVal (dChar n) = some n := by
  interval_cases n <;> rfl

theorem dChar_toNat (n : Nat) (h : n ≤ 9) : (dChar n).toNat = 48 + n := by
  interval_cases n <;> rfl

theorem charListLe_cons (x y : Char) (a b : List Char) :
    charListLe (x :: a) (y :: b) =
      if x.toNat < y.toNat then true
      else if y.toNat < x.toNat then false
      else charListLe a b := rfl

theorem charListLe_cons_same (c : Char) (a b : List Char) :
    charListLe (c :: a) (c :: b) = charListLe a b := by
  simp [charListLe]

theorem charListLe_append_same (p a b : List Char) :
    charListLe (p ++ a) (p ++ b) = charListLe a b := by
  induction p with
  | nil => rfl
  | cons c cs ih => simpa [charListLe_cons_same] using ih

/-- Comparison of two-digit zero-padded renderings followed by arbitrary
tails: the field values decide, ties fall through to the tails. -/
theorem charListLe_pad2 (a b : Nat) (ha : a ≤ 99) (hb : b ≤ 99)
    (r1 r2 : List Char) :
    charListLe (pad2 a ++ r1) (pad2 b ++ r2) = true ↔
      (a < b ∨ (a = b ∧ charListLe r1 r2 = true)) := by
  unfold pad2
  simp only [List.cons_append, List.nil_append]
  rw [charListLe_cons]
  rw [dChar_toNat _ (by omega), dChar_toNat _ (by omega)]
  rcases Nat.lt_trichotomy (a / 10 % 10) (b / 10 % 10) with h1 | h1 | h1
  · rw [if_pos (by omega)]
    constructor
    · intro _; left; omega
    · intro _; rfl
  · rw [if_neg (by omega), if_neg (by omega)]
    rw [charListLe_cons]
    rw [dChar_toNat _ (by omega), dChar_toNat _ (by omega)]
    rcases Nat.lt_trichotomy (a % 10) (b % 10) with h2 | h2 | h2
    · rw [if_pos (by omega)]
      constructor
      · intro _; left; omega
      · intro _; rfl
    · rw [if_neg (by omega), if_neg (by omega)]
      constructor
      · intro h; right; exact ⟨by omega, h⟩
      · rintro (h | ⟨_, h⟩)
        · omega
        · exact h
    · rw [if_neg (by omega), if_pos (by omega)]
      constructor
      · intro h; simp at h
      · rintro (h | ⟨h, _⟩) <;> omega
  · rw [if_neg (by omega), if_pos (by omega)]
    constructor
    · intro h; simp at h
    · rintro (h | ⟨h, _⟩) <;> omega

theorem charListLe_pad2_nil (a b : Nat) (ha : a ≤ 99) (hb : b ≤ 99) :
    charListLe (pad2 a) (pad2 b) = true ↔ a ≤ b := by
  have h := charListLe_pad2 a b ha hb [] []
  simp only [List.append_nil] at h
  rw [h]
  constructor
  · intro h'
    rcases h' with h' | ⟨h', _⟩ <;> omega
  · intro h'
    rcases Nat.lt_or_ge a b with h2 | h2
    · left; exact h2
    · right; exact ⟨by omega, rfl⟩

/-! ### Roundtrip of formatting and parsing -/

theorem expectChar_cons (c : Char) (rest : List Char) :
    expectChar c (c :: rest) = some rest := by
  simp [expectChar]

theorem take4Digits_pad4 (y : Nat) (hy : y ≤ 9999) (rest : List Char) :
    take4Digits (pad4 y ++ rest) = some (y, rest) := by
  unfold pad4 take4Digits
  simp only [List.cons_append, List.nil_append]
  rw [dVal_dChar _ (by omega), dVal_dChar _ (by omega),
      dVal_dChar _ (by omega), dVal_dChar _ (by omega)]
  simp only [Option.some.injEq, Prod.mk.injEq]
  exact ⟨by omega, trivial⟩

theorem take2Digits_pad2 (v : Nat) (hv : v ≤ 99) (rest : List Char) :
    take2Digits (pad2 v ++ rest) = some (v, rest) := by
  unfold pad2 take2Digits
  simp only [List.cons_append, List.nil_append]
  rw [dVal_dChar _ (by omega), dVal_dChar _ (by omega)]
  simp only [Option.some.injEq, Prod.mk.injEq]
  exact ⟨by omega, trivial⟩

theorem pField_pad2 (ok2 ok1 : Nat → Bool) (v : Nat) (hv : v ≤ 99)
    (h2 : ok2 v = true) (rest : List Char) :
    pField ok2 ok1 (pad2 v ++ rest) = some (v, rest) := by
  unfold pad2 pField
  simp only [List.cons_append, List.nil_append]
  rw [dVal_dChar _ (by omega), dVal_dChar _ (by omega)]
  simp only []
  rw [show 10 * (v / 10 % 10) + v % 10 = v by omega, if_pos h2]

theorem daysInMonth_le (y m : Nat) : daysInMonth y m ≤ 31 := by
  unfold daysInMonth
  split
  · split <;> omega
  all_goals omega

theorem pField_pad2_nil (ok2 ok1 : Nat → Bool) (v : Nat) (hv : v ≤ 99)
    (h2 : ok2 v = true) : pField ok2 ok1 (pad2 v) = some (v, []) := by
  have h := pField_pad2 ok2 ok1 v hv h2 []
  simpa using h

theorem take2Digits_pad2_nil (v : Nat) (hv : v ≤ 99) :
    take2Digits (pad2 v) = some (v, []) := by
  have h := take2Digits_pad2 v hv []
  simpa using h

/-- Parsing a canonically rendered valid instant recovers it. -/
theorem parseTS_fmtDT (t : DT) (h : validDT t) : parseTS (fmtDT t) = some t := by
  obtain ⟨y, m, d, hh, mi, ss⟩ := t
  simp only [validDT, validDate, DT.date] at h
  obtain ⟨⟨hy1, hy2, hm1, hm2, hd1, hd2⟩, hhh, hmi, hss⟩ := h
  unfold parseTS fmtDT
  simp only [String.data, List.append_assoc, List.cons_append]
  rw [take4Digits_pad4 _ (by exact hy2)]
  simp only [Option.bind_eq_bind, Option.some_bind]
  rw [expectChar_cons]
  simp only [Option.some_bind]
  rw [pField_pad2 _ _ _ (by omega) (by simp only [Bool.and_eq_true, decide_eq_true_eq]; omega)]
  simp only [Option.some_bind]
  rw [expectChar_cons]
  simp only [Option.some_bind]
  rw [pField_pad2 _ _ _ (by have := daysInMonth_le y m; omega)
        (by simp only [Bool.and_eq_true, decide_eq_true_eq]
            have := daysInMonth_le y m; omega)]
  simp only [Option.some_bind]
  rw [expectChar_cons]
  simp only [Option.some_bind]
  rw [pField_pad2 _ _ _ (by omega) (by simp only [decide_eq_true_eq]; omega)]
  simp only [Option.some_bind]
  rw [expectChar_cons]
  simp only [Option.some_bind]
  rw [pField_pad2 _ _ _ (by omega) (by simp only [decide_eq_true_eq]; omega)]
  simp only [Option.some_bind]
  rw [expectChar_cons]
  simp only [Option.some_bind]
  rw [pField_pad2_nil _ _ _ (by omega) (by simp only [decide_eq_true_eq]; omega)]
  simp only [Option.some_bind]
  rw [if_pos (by exact ⟨rfl, hy1, hd2, hss⟩)]

/-- Parsing a canonically rendered date recovers it. -/
theorem parseDateStr_fmtDate (t : Date) (hy : t.y ≤ 9999) (hm : t.m ≤ 99)
    (hd : t.d ≤ 99) : parseDateStr (fmtDate t) = some t := by
  unfold parseDateStr fmtDate
  simp only [String.data, List.append_assoc, List.cons_append]
  rw [take4Digits_pad4 _ hy]
  simp only [Option.bind_eq_bind, Option.some_bind]
  rw [expectChar_cons]
  simp only [Option.some_bind]
  rw [take2Digits_pad2 _ hm]
  simp only [Option.some_bind]
  rw [expectChar_cons]
  simp only [Option.some_bind]
  rw [take2Digits_pad2_nil _ hd]
  simp only [Option.some_bind]
  rfl

theorem dChar_ne_space (n : Nat) : dChar n ≠ ' ' := by
  unfold dChar
  split <;> decide

/-- Splitting a canonical timestamp at the first space yields the
canonical date rendering of its date part. -/
theorem splitDate_fmtDT (t : DT) : splitDate (fmtDT t) = fmtDate t.date := by
  unfold splitDate fmtDT fmtDate
  simp only [String.data, DT.date, List.append_assoc, List.cons_append]
  unfold pad4 pad2
  simp only [List.cons_append, List.nil_append]
  simp [List.takeWhile, dChar_ne_space]

/-- String comparison of two canonical timestamp renderings that share
their calendar date coincides with the instant comparison. -/
theorem strLe_fmtDT_same_date (a b : DT) (hd : a.date = b.date)
    (hha : a.hh ≤ 23) (hmia : a.mi ≤ 59) (hssa : a.ss ≤ 59)
    (hhb : b.hh ≤ 23) (hmib : b.mi ≤ 59) (hssb : b.ss ≤ 59) :
    strLe (fmtDT a) (fmtDT b) = true ↔ dtLe a b = true := by
  have hy : a.y = b.y := congrArg Date.y hd
  have hm : a.m = b.m := congrArg Date.m hd
  have hdd : a.d = b.d := congrArg Date.d hd
  unfold strLe fmtDT
  simp only [String.data]
  rw [hy, hm, hdd]
  simp only [List.append_assoc, List.cons_append]
  rw [charListLe_append_same, charListLe_cons_same, charListLe_append_same,
      charListLe_cons_same, charListLe_append_same, charListLe_cons_same]
  rw [charListLe_pad2 _ _ (by omega) (by omega)]
  constructor
  · intro h
    rcases h with h | ⟨heq, h⟩
    · simp only [dtLe_iff, dtLt_iff]; omega
    · rw [charListLe_cons_same, charListLe_pad2 _ _ (by omega) (by omega)] at h
      rcases h with h | ⟨heq2, h⟩
      · simp only [dtLe_iff, dtLt_iff]; omega
      · rw [charListLe_cons_same, charListLe_pad2_nil _ _ (by omega) (by omega)] at h
        simp only [dtLe_iff, dtLt_iff]; omega
  · intro h
    simp only [dtLe_iff, dtLt_iff] at h
    rcases Nat.lt_trichotomy a.hh b.hh with h1 | h1 | h1
    · left; exact h1
    · right
      refine ⟨h1, ?_⟩
      rw [charListLe_cons_same, charListLe_pad2 _ _ (by omega) (by omega)]
      rcases Nat.lt_trichotomy a.mi b.mi with h2 | h2 | h2
      · left; exact h2
      · right
        refine ⟨h2, ?_⟩
        rw [charListLe_cons_same, charListLe_pad2_nil _ _ (by omega) (by omega)]
        omega
      · omega
    · omega

/-! ### The punch indexer as a filter -/

/-- Filter characterising one bucket of the punch index. -/
def bucketPred (c d : String) (tx : Tx) : Bool :=
  truthy tx.emp_code && truthy tx.punch_time &&
    decide (c = tx.emp_code) && decide (d = splitDate tx.punch_time)

theorem indexFold_eq (txs : List Tx) (m : String → String → List Tx)
    (c d : String) :
    (txs.foldl
      (fun m tx => if truthy tx.emp_code && truthy tx.punch_time then addTx m tx else m)
      m) c d = m c d ++ txs.filter (bucketPred c d) := by
  induction txs generalizing m with
  | nil => simp
  | cons tx rest ih =>
    rw [List.foldl_cons, List.filter_cons]
    by_cases h : (truthy tx.emp_code && truthy tx.punch_time) = true
    · rw [if_pos h, ih]
      by_cases h2 : c = tx.emp_code ∧ d = splitDate tx.punch_time
      · have hb : bucketPred c d tx = true := by
          simp [bucketPred, h2.1, h2.2]
          exact Bool.and_eq_true .. ▸ h
        rw [if_pos hb]
        unfold addTx
        rw [if_pos h2]
        simp
      · have hb : bucketPred c d tx = false := by
          rcases Decidable.not_and_iff_or_not.mp h2 with h3 | h3 <;>
            simp [bucketPred, h3]
        rw [if_neg (by simp [hb])]
        unfold addTx
        rw [if_neg h2]
    · rw [if_neg h]
      have hb : bucketPred c d tx = false := by
        unfold bucketPred
        rcases Bool.and_eq_false_iff.mp (Bool.eq_false_iff.mpr
          (fun hcontra => h hcontra)) with h3 | h3 <;> simp [h3]
      rw [if_neg (by simp [hb]), ih]

/-- The punch index, looked up at an employee and a date string, is the
order-preserving filter of the transactions by that key pair. -/
theorem indexPunches_eq_filter (txs : List Tx) (c d : String) :
    indexPunches txs c d = txs.filter (bucketPred c d) := by
  unfold indexPunches
  rw [indexFold_eq]
  rfl

/-! ### Case analysis of the daily classifier -/

/-- Threshold instant for a day, `datetime.combine(day.date(), late_time_struct)`. -/
def thresholdDT (day : Date) (lt : TimeOfDay) : DT :=
  ⟨day.y, day.m, day.d, lt.hh, lt.mi, lt.ss⟩

theorem dayStep_weekend_worked (lt : TimeOfDay) (pm : String → String → List Tx)
    (code : String) (st : Stats) (day : Date)
    (h6 : pyWeekday day = 6) (hp : pm code (fmtDate day) ≠ []) :
    dayStep lt pm code st day = .ok { st with present := st.present + 1 } := by
  unfold dayStep
  simp [h6, List.isEmpty_eq_true, hp]

theorem dayStep_weekend_idle (lt : TimeOfDay) (pm : String → String → List Tx)
    (code : String) (st : Stats) (day : Date)
    (h6 : pyWeekday day = 6) (hp : pm code (fmtDate day) = []) :
    dayStep lt pm code st day = .ok st := by
  unfold dayStep
  simp [h6, hp]

theorem dayStep_weekday_absent (lt : TimeOfDay) (pm : String → String → List Tx)
    (code : String) (st : Stats) (day : Date)
    (h6 : pyWeekday day ≠ 6) (hp : pm code (fmtDate day) = []) :
    dayStep lt pm code st day = .ok
      { st with work_days_required := st.work_days_required + 1,
                absent := st.absent + 1,
                absent_details := st.absent_details ++ [fmtDate day] } := by
  unfold dayStep
  simp [h6, hp]

theorem dayStep_weekday_eq (lt : TimeOfDay) (pm : String → String → List Tx)
    (code : String) (st : Stats) (day : Date) (first : Tx) (rest : List Tx) (fp : DT)
    (h6 : pyWeekday day ≠ 6)
    (hsort : sortByLe (fun a b => strLe a.punch_time b.punch_time)
      (pm code (fmtDate day)) = first :: rest)
    (hparse : parseTS first.punch_time = some fp) :
    dayStep lt pm code st day = .ok (
      if dtLt (thresholdDT day lt) fp then
        { st with work_days_required := st.work_days_required + 1,
                  present := st.present + 1,
                  late := st.late + 1,
                  late_details := st.late_details ++
                    [⟨fmtDate day, first.punch_time,
                      strTimedelta (toSeconds fp - toSeconds (thresholdDT day lt))⟩] }
      else
        { st with work_days_required := st.work_days_required + 1,
                  present := st.present + 1 }) := by
  have hp : pm code (fmtDate day) ≠ [] := by
    intro hcon
    rw [hcon] at hsort
    simp [sortByLe] at hsort
  unfold dayStep thresholdDT
  simp only [List.isEmpty_eq_true, hp, h6]
  rw [hsort]
  simp only [hparse]
  simp [h6, hp, List.isEmpty_eq_true]
  split <;> rfl

theorem dayStep_error_of_badparse (lt : TimeOfDay) (pm : String → String → List Tx)
    (code : String) (st : Stats) (day : Date) (first : Tx) (rest : List Tx)
    (h6 : pyWeekday day ≠ 6)
    (hsort : sortByLe (fun a b => strLe a.punch_time b.punch_time)
      (pm code (fmtDate day)) = first :: rest)
    (hparse : parseTS first.punch_time = none) :
    ∃ e, dayStep lt pm code st day = .error e := by
  have hp : pm code (fmtDate day) ≠ [] := by
    intro hcon
    rw [hcon] at hsort
    simp [sortByLe] at hsort
  refine ⟨"time data " ++ first.punch_time ++ " does not match format", ?_⟩
  unfold dayStep
  simp only [List.isEmpty_eq_true, hp, h6]
  rw [hsort]
  simp only [hparse]
  simp [h6, hp, List.isEmpty_eq_true]

/-- Exhaustive description of a successful daily-classifier step. -/
theorem dayStep_ok_cases (lt : TimeOfDay) (pm : String → String → List Tx)
    (code : String) (st : Stats) (day : Date) (st' : Stats)
    (h : dayStep lt pm code st day = .ok st') :
    (pyWeekday day = 6 ∧ pm code (fmtDate day) ≠ [] ∧
      st' = { st with present := st.present + 1 }) ∨
    (pyWeekday day = 6 ∧ pm code (fmtDate day) = [] ∧ st' = st) ∨
    (pyWeekday day ≠ 6 ∧ pm code (fmtDate day) = [] ∧
      st' = { st with work_days_required := st.work_days_required + 1,
                      absent := st.absent + 1,
                      absent_details := st.absent_details ++ [fmtDate day] }) ∨
    (pyWeekday day ≠ 6 ∧ pm code (fmtDate day) ≠ [] ∧
      st'.work_days_required = st.work_days_required + 1 ∧
      st'.present = st.present + 1 ∧ st'.absent = st.absent ∧
      st'.absent_details = st.absent_details ∧
      ((st'.late = st.late ∧ st'.late_details = st.late_details) ∨
       (st'.late = st.late + 1 ∧ ∃ ld : LateDetail, ld.date = fmtDate day ∧
         st'.late_details = st.late_details ++ [ld]))) := by
  by_cases h6 : pyWeekday day = 6
  · by_cases hp : pm code (fmtDate day) = []
    · right; left
      rw [dayStep_weekend_idle lt pm code st day h6 hp] at h
      exact ⟨h6, hp, (Except.ok.inj h).symm⟩
    · left
      rw [dayStep_weekend_worked lt pm code st day h6 hp] at h
      exact ⟨h6, hp, (Except.ok.inj h).symm⟩
  · by_cases hp : pm code (fmtDate day) = []
    · right; right; left
      rw [dayStep_weekday_absent lt pm code st day h6 hp] at h
      exact ⟨h6, hp, (Except.ok.inj h).symm⟩
    · right; right; right
      have hlen : (sortByLe (fun a b => strLe a.punch_time b.punch_time)
          (pm code (fmtDate day))).length ≠ 0 := by
        rw [length_sortByLe]
        intro hcon
        exact hp (List.length_eq_zero.mp hcon)
      have hne : sortByLe (fun a b => strLe a.punch_time b.punch_time)
          (pm code (fmtDate day)) ≠ [] :=
        fun hcon => hlen (by rw [hcon]; rfl)
      obtain ⟨first, rest, hsort⟩ := List.exists_cons_of_ne_nil hne
      cases hparse : parseTS first.punch_time with
      | none =>
        obtain ⟨e, he⟩ :=
          dayStep_error_of_badparse lt pm code st day first rest h6 hsort hparse
        rw [he] at h
        simp at h
      | some fp =>
        have heq := dayStep_weekday_eq lt pm code st day first rest fp h6 hsort hparse
        rw [heq] at h
        have hst := (Except.ok.inj h)
        refine ⟨h6, hp, ?_⟩
        by_cases hlate : dtLt (thresholdDT day lt) fp = true
        · rw [if_pos hlate] at hst
          subst hst
          refine ⟨rfl, rfl, rfl, rfl, Or.inr ⟨rfl, ?_⟩⟩
          exact ⟨⟨fmtDate day, first.punch_time,
            strTimedelta (toSeconds fp - toSeconds (thresholdDT day lt))⟩, rfl, rfl⟩
        · rw [if_neg hlate] at hst
          subst hst
          exact ⟨rfl, rfl, rfl, rfl, Or.inl ⟨rfl, rfl⟩⟩

/-- Accounting invariants of the per-employee day loop: required-day,
present/absent and detail-list bookkeeping over an arbitrary date list. -/
theorem dayFold_spec (lt : TimeOfDay) (pm : String → String → List Tx)
    (code : String) (dates : List Date) :
    ∀ st st' : Stats,
    List.foldlM (dayStep lt pm code) st dates = .ok st' →
      st'.work_days_required = st.work_days_required + countWeekdays dates ∧
      st'.present + st'.absent =
        st.present + st.absent + countWeekdays dates + weekendWorked pm code dates ∧
      st'.absent = st.absent + (dates.filter
        (fun d => !(pyWeekday d == 6) && (pm code (fmtDate d)).isEmpty)).length ∧
      st'.absent_details = st.absent_details ++ (dates.filter
        (fun d => !(pyWeekday d == 6) && (pm code (fmtDate d)).isEmpty)).map fmtDate ∧
      st'.late_details.length + st.late = st.late_details.length + st'.late ∧
      (∃ ds : List Date, ds.Sublist dates ∧
        st'.late_details.map LateDetail.date =
          st.late_details.map LateDetail.date ++ ds.map fmtDate) := by
  induction dates with
  | nil =>
    intro st st' h
    simp only [List.foldlM_nil] at h
    cases h
    simp [countWeekdays, weekendWorked]
  | cons day rest ih =>
    intro st st' h
    rw [List.foldlM_cons] at h
    cases hstep : dayStep lt pm code st day with
    | error e =>
      rw [hstep, except_error_bind] at h
      simp at h
    | ok st1 =>
      rw [hstep, except_ok_bind] at h
      obtain ⟨ih1, ih2, ih3, ih4, ih5, ds, hds, ih6⟩ := ih st1 st' h
      have hcw : countWeekdays (day :: rest) =
          (if pyWeekday day = 6 then 0 else 1) + countWeekdays rest := by
        simp only [countWeekdays, List.countP_cons]
        by_cases h6 : pyWeekday day = 6 <;> simp [h6] <;> omega
      rcases dayStep_ok_cases lt pm code st day st1 hstep with
        ⟨h6, hp, hst⟩ | ⟨h6, hp, hst⟩ | ⟨h6, hp, hst⟩ | ⟨h6, hp, c1, c2, c3, c4, c5⟩
      · subst hst
        have hww : weekendWorked pm code (day :: rest) =
            1 + weekendWorked pm code rest := by
          simp only [weekendWorked, List.countP_cons]
          simp [h6, List.isEmpty_eq_true, hp]
          omega
        have hfd : (List.filter
            (fun d => !(pyWeekday d == 6) && (pm code (fmtDate d)).isEmpty)
            (day :: rest)) = (List.filter
            (fun d => !(pyWeekday d == 6) && (pm code (fmtDate d)).isEmpty) rest) := by
          rw [List.filter_cons]
          simp [h6]
        refine ⟨?_, ?_, ?_, ?_, ?_, ds, hds.cons day, ?_⟩ <;>
          simp_all [hcw, hww, hfd] <;> omega
      · subst hst
        have hww : weekendWorked pm code (day :: rest) =
            weekendWorked pm code rest := by
          simp only [weekendWorked, List.countP_cons]
          simp [h6, hp]
        have hfd : (List.filter
            (fun d => !(pyWeekday d == 6) && (pm code (fmtDate d)).isEmpty)
            (day :: rest)) = (List.filter
            (fun d => !(pyWeekday d == 6) && (pm code (fmtDate d)).isEmpty) rest) := by
          rw [List.filter_cons]
          simp [h6]
        refine ⟨?_, ?_, ?_, ?_, ?_, ds, hds.cons day, ?_⟩ <;>
          simp_all [hcw, hww, hfd] <;> omega
      · subst hst
        have hww : weekendWorked pm code (day :: rest) =
            weekendWorked pm code rest := by
          simp only [weekendWorked, List.countP_cons]
          simp [h6]
        have hfd : (List.filter
            (fun d => !(pyWeekday d == 6) && (pm code (fmtDate d)).isEmpty)
            (day :: rest)) = day :: (List.filter
            (fun d => !(pyWeekday d == 6) && (pm code (fmtDate d)).isEmpty) rest) := by
          rw [List.filter_cons]
          simp [h6, hp]
        refine ⟨?_, ?_, ?_, ?_, ?_, ds, hds.cons day, ?_⟩ <;>
          simp_all [hcw, hww, hfd] <;> omega
      · have hww : weekendWorked pm code (day :: rest) =
            weekendWorked pm code rest := by
          simp only [weekendWorked, List.countP_cons]
          simp [h6]
        have hfd : (List.filter
            (fun d => !(pyWeekday d == 6) && (pm code (fmtDate d)).isEmpty)
            (day :: rest)) = (List.filter
            (fun d => !(pyWeekday d == 6) && (pm code (fmtDate d)).isEmpty) rest) := by
          rw [List.filter_cons]
          simp [h6, List.isEmpty_eq_true, hp]
        rcases c5 with ⟨c5a, c5b⟩ | ⟨c5a, ld, hld, c5b⟩
        · refine ⟨?_, ?_, ?_, ?_, ?_, ds, hds.cons day, ?_⟩ <;>
            simp_all [hcw, hww, hfd] <;> omega
        · refine ⟨?_, ?_, ?_, ?_, ?_, day :: ds, hds.cons₂ day, ?_⟩
          · rw [ih1, c1, hcw]
            simp [h6]
            omega
          · rw [hww, hcw]
            simp [h6]
            omega
          · rw [ih3, c3, hfd]
          · rw [ih4, c4, hfd]
          · rw [c5b] at ih5
            rw [c5a] at ih5
            simp at ih5
            omega
          · rw [ih6, c5b]
            simp [hld]

/-- Day loop of an employee without any indexed punch: every non-Sunday
day is counted absent, nothing else moves. -/
theorem dayFold_no_punches (lt : TimeOfDay) (pm : String → String → List Tx)
    (code : String) (dates : List Date)
    (hnp : ∀ d ∈ dates, pm code (fmtDate d) = []) :
    ∀ st : Stats, List.foldlM (dayStep lt pm code) st dates = .ok
      { st with work_days_required := st.work_days_required + countWeekdays dates,
                absent := st.absent + countWeekdays dates,
                absent_details := st.absent_details ++
                  (dates.filter (fun d => !(pyWeekday d == 6))).map fmtDate } := by
  induction dates with
  | nil =>
    intro st
    simp only [List.foldlM_nil, countWeekdays, List.countP_nil, List.filter_nil,
      List.map_nil, List.append_nil, Nat.add_zero]
    rfl
  | cons day rest ih =>
    intro st
    have hday : pm code (fmtDate day) = [] := hnp day (List.mem_cons_self day rest)
    have hrest : ∀ d ∈ rest, pm code (fmtDate d) = [] :=
      fun d hd => hnp d (List.mem_cons_of_mem _ hd)
    rw [List.foldlM_cons]
    by_cases h6 : pyWeekday day = 6
    · rw [dayStep_weekend_idle lt pm code st day h6 hday, except_ok_bind]
      rw [ih hrest st]
      have hcw : countWeekdays (day :: rest) = countWeekdays rest := by
        simp [countWeekdays, List.countP_cons, h6]
      have hfd : (day :: rest).filter (fun d => !(pyWeekday d == 6)) =
          rest.filter (fun d => !(pyWeekday d == 6)) := by
        rw [List.filter_cons]
        simp [h6]
      rw [hcw, hfd]
    · rw [dayStep_weekday_absent lt pm code st day h6 hday, except_ok_bind]
      rw [ih hrest]
      have hcw : countWeekdays (day :: rest) = 1 + countWeekdays rest := by
        simp [countWeekdays, List.countP_cons, h6]
        omega
      have hfd : (day :: rest).filter (fun d => !(pyWeekday d == 6)) =
          day :: rest.filter (fun d => !(pyWeekday d == 6)) := by
        rw [List.filter_cons]
        simp [h6]
      rw [hcw, hfd]
      congr 1
      congr 1 <;> simp <;> omega

/-! ### The employee loop -/

theorem calcReports_mem (lt : TimeOfDay) (pm : String → String → List Tx)
    (dates : List Date) :
    ∀ (emps : List Employee) (l : List Report),
    calcReports lt pm dates emps = .ok l → ∀ r ∈ l,
    ∃ emp, emp ∈ emps ∧ emp.emp_code ≠ "" ∧ ∃ st,
      calcEmployeeStats lt pm emp.emp_code dates = .ok st ∧ r = mkReport emp st := by
  intro emps
  induction emps with
  | nil =>
    intro l h r hr
    simp only [calcReports] at h
    cases h
    cases hr
  | cons emp rest ih =>
    intro l h r hr
    simp only [calcReports] at h
    by_cases hc : emp.emp_code = ""
    · rw [if_pos hc] at h
      obtain ⟨e2, he2, hne, st, hst, hr2⟩ := ih l h r hr
      exact ⟨e2, List.mem_cons_of_mem _ he2, hne, st, hst, hr2⟩
    · rw [if_neg hc] at h
      cases hst : calcEmployeeStats lt pm emp.emp_code dates with
      | error e =>
        rw [hst, except_error_bind] at h
        simp at h
      | ok st =>
        rw [hst, except_ok_bind] at h
        cases hrest : calcReports lt pm dates rest with
        | error e =>
          rw [hrest, except_error_bind] at h
          simp at h
        | ok others =>
          rw [hrest, except_ok_bind] at h
          have hl : mkReport emp st :: others = l := Except.ok.inj h
          subst hl
          rcases List.mem_cons.mp hr with hr2 | hr2
          · exact ⟨emp, List.mem_cons_self emp rest, hc, st, hst, hr2⟩
          · obtain ⟨e2, he2, hne, st2, hst2, hr3⟩ := ih others hrest r hr2
            exact ⟨e2, List.mem_cons_of_mem _ he2, hne, st2, hst2, hr3⟩

theorem calcReports_exists (lt : TimeOfDay) (pm : String → String → List Tx)
    (dates : List Date) :
    ∀ (emps : List Employee) (l : List Report),
    calcReports lt pm dates emps = .ok l →
    ∀ emp ∈ emps, emp.emp_code ≠ "" →
    ∃ st, calcEmployeeStats lt pm emp.emp_code dates = .ok st ∧ mkReport emp st ∈ l := by
  intro emps
  induction emps with
  | nil =>
    intro l _ emp hm
    cases hm
  | cons e2 rest ih =>
    intro l h emp hm hc
    simp only [calcReports] at h
    by_cases hc2 : e2.emp_code = ""
    · rw [if_pos hc2] at h
      rcases List.mem_cons.mp hm with hm2 | hm2
      · subst hm2
        exact absurd hc2 hc
      · exact ih l h emp hm2 hc
    · rw [if_neg hc2] at h
      cases hst : calcEmployeeStats lt pm e2.emp_code dates with
      | error e =>
        rw [hst, except_error_bind] at h
        simp at h
      | ok st =>
        rw [hst, except_ok_bind] at h
        cases hrest : calcReports lt pm dates rest with
        | error er =>
          rw [hrest, except_error_bind] at h
          simp at h
        | ok others =>
          rw [hrest, except_ok_bind] at h
          have hl : mkReport e2 st :: others = l := Except.ok.inj h
          subst hl
          rcases List.mem_cons.mp hm with hm2 | hm2
          · subst hm2
            exact ⟨st, hst, List.mem_cons_self _ _⟩
          · obtain ⟨st2, hst2, hmem⟩ := ih others hrest emp hm2 hc
            exact ⟨st2, hst2, List.mem_cons_of_mem _ hmem⟩

theorem calcReports_error (lt : TimeOfDay) (pm : String → String → List Tx)
    (dates : List Date) :
    ∀ (emps : List Employee) (emp : Employee), emp ∈ emps → emp.emp_code ≠ "" →
    (∀ st, calcEmployeeStats lt pm emp.emp_code dates ≠ .ok st) →
    ∀ l, calcReports lt pm dates emps ≠ .ok l := by
  intro emps
  induction emps with
  | nil =>
    intro emp hm
    cases hm
  | cons e2 rest ih =>
    intro emp hm hc hfail l h
    simp only [calcReports] at h
    by_cases hc2 : e2.emp_code = ""
    · rw [if_pos hc2] at h
      rcases List.mem_cons.mp hm with hm2 | hm2
      · subst hm2
        exact hc hc2
      · exact ih emp hm2 hc hfail l h
    · rw [if_neg hc2] at h
      cases hst : calcEmployeeStats lt pm e2.emp_code dates with
      | error e =>
        rw [hst, except_error_bind] at h
        rcases List.mem_cons.mp hm with hm2 | hm2
        · subst hm2
          simp at h
        · simp at h
      | ok st =>
        rcases List.mem_cons.mp hm with hm2 | hm2
        · subst hm2
          exact hfail st hst
        · rw [hst, except_ok_bind] at h
          cases hrest : calcReports lt pm dates rest with
          | error er =>
            rw [hrest, except_error_bind] at h
            simp at h
          | ok others =>
            exact ih emp hm2 hc hfail others hrest

/-- Result shape of the full aggregator. -/
theorem calculate_ok_iff (lt : TimeOfDay) (employees : List Employee)
    (txs : List Tx) (s e : DT) (l : List Report) :
    calculate_attendance_stats lt employees txs s e = .ok l ↔
    ∃ rd, calcReports lt (indexPunches txs) (dateRange s.date e.date) employees = .ok rd ∧
      l = sortByLe (fun a b => strLe a.emp_code b.emp_code) rd := by
  unfold calculate_attendance_stats
  dsimp only
  cases h : calcReports lt (indexPunches txs) (dateRange s.date e.date) employees with
  | error er =>
    rw [except_error_bind]
    constructor
    · intro hcon; simp at hcon
    · rintro ⟨rd, hrd, _⟩
      cases hrd
  | ok rd =>
    rw [except_ok_bind]
    constructor
    · intro hok
      exact ⟨rd, rfl, (Except.ok.inj hok).symm⟩
    · rintro ⟨rd2, hrd2, hl⟩
      cases hrd2
      rw [hl]

/-! ### The generated date list -/

theorem dateLe_refl (t : Date) : dateLe t t = true := by
  simp [dateLe_iff]

theorem dateLe_of_lt (a b : Date) (h : dateLt a b = true) : dateLe a b = true := by
  simp only [dateLt_iff] at h
  simp only [dateLe_iff]
  omega

theorem one_le_daysInMonth (y m : Nat) : 1 ≤ daysInMonth y m := by
  unfold daysInMonth
  split
  · split <;> omega
  all_goals omega

theorem nextDay_lt (t : Date) : dateLt t (nextDay t) = true := by
  unfold nextDay
  split
  · simp [dateLt_iff]
  · split <;> simp [dateLt_iff]

/-- Month/day well-formedness, preserved by the calendar successor. -/
def validMD (t : Date) : Prop :=
  1 ≤ t.m ∧ t.m ≤ 12 ∧ 1 ≤ t.d ∧ t.d ≤ daysInMonth t.y t.m

theorem nextDay_validMD (t : Date) (h : validMD t) : validMD (nextDay t) := by
  obtain ⟨h1, h2, h3, h4⟩ := h
  unfold nextDay
  by_cases hd : t.d + 1 ≤ daysInMonth t.y t.m
  · rw [if_pos hd]
    refine ⟨?_, ?_, ?_, ?_⟩ <;> dsimp only [validMD] <;> omega
  · rw [if_neg hd]
    by_cases hm : t.m + 1 ≤ 12
    · rw [if_pos hm]
      have hone := one_le_daysInMonth t.y (t.m + 1)
      refine ⟨?_, ?_, ?_, ?_⟩ <;> dsimp only [validMD] <;> omega
    · rw [if_neg hm]
      have hone := one_le_daysInMonth (t.y + 1) 1
      refine ⟨?_, ?_, ?_, ?_⟩ <;> dsimp only [validMD] <;> omega

theorem validDate_iff (t : Date) :
    validDate t ↔ validMD t ∧ 1 ≤ t.y ∧ t.y ≤ 9999 := by
  unfold validDate validMD
  constructor
  · rintro ⟨a, b, c, d, e, f⟩
    exact ⟨⟨c, d, e, f⟩, a, b⟩
  · rintro ⟨⟨c, d, e, f⟩, a, b⟩
    exact ⟨a, b, c, d, e, f⟩

theorem dateRangeAux_mem_le :
    ∀ (fuel : Nat) (c stop x : Date), x ∈ dateRangeAux fuel c stop →
      dateLe c x = true ∧ dateLe x stop = true := by
  intro fuel
  induction fuel with
  | zero =>
    intro c stop x hx
    cases hx
  | succ n ih =>
    intro c stop x hx
    unfold dateRangeAux at hx
    by_cases hc : dateLe c stop = true
    · rw [if_pos hc] at hx
      rcases List.mem_cons.mp hx with hx' | hx'
      · subst hx'
        exact ⟨dateLe_refl x, hc⟩
      · obtain ⟨h1, h2⟩ := ih (nextDay c) stop x hx'
        refine ⟨?_, h2⟩
        have := nextDay_lt c
        exact dateLe_of_lt _ _ (dateLt_of_lt_of_le _ _ _ this h1)
    · rw [if_neg hc] at hx
      cases hx

theorem dateRangeAux_mem_validMD :
    ∀ (fuel : Nat) (c stop x : Date), validMD c → x ∈ dateRangeAux fuel c stop →
      validMD x := by
  intro fuel
  induction fuel with
  | zero =>
    intro c stop x _ hx
    cases hx
  | succ n ih =>
    intro c stop x hc hx
    unfold dateRangeAux at hx
    by_cases hcs : dateLe c stop = true
    · rw [if_pos hcs] at hx
      rcases List.mem_cons.mp hx with hx' | hx'
      · subst hx'; exact hc
      · exact ih (nextDay c) stop x (nextDay_validMD c hc) hx'
    · rw [if_neg hcs] at hx
      cases hx

theorem dateRangeAux_pairwise :
    ∀ (fuel : Nat) (c stop : Date),
      List.Pairwise (fun a b => dateLt a b = true) (dateRangeAux fuel c stop) := by
  intro fuel
  induction fuel with
  | zero =>
    intro c stop
    exact List.Pairwise.nil
  | succ n ih =>
    intro c stop
    unfold dateRangeAux
    by_cases hc : dateLe c stop = true
    · rw [if_pos hc]
      refine List.Pairwise.cons ?_ (ih (nextDay c) stop)
      intro x hx
      obtain ⟨h1, _⟩ := dateRangeAux_mem_le n (nextDay c) stop x hx
      exact dateLt_of_lt_of_le _ _ _ (nextDay_lt c) h1
    · rw [if_neg hc]
      exact List.Pairwise.nil

/-- Every date produced by the range loop from a well-formed start within
the stop's year bound is a valid calendar date. -/
theorem dateRange_mem_valid (s e x : Date) (hs : validDate s) (he : e.y ≤ 9999)
    (hx : x ∈ dateRange s e) : validDate x := by
  obtain ⟨hmd, hy1, _⟩ := (validDate_iff s).mp hs
  obtain ⟨h1, h2⟩ := dateRangeAux_mem_le _ _ _ _ hx
  have hxmd := dateRangeAux_mem_validMD _ _ _ _ hmd hx
  refine (validDate_iff x).mpr ⟨hxmd, ?_, ?_⟩
  · simp only [dateLe_iff] at h1
    omega
  · simp only [dateLe_iff] at h2
    omega

theorem dateRange_pairwise (s e : Date) :
    List.Pairwise (fun a b => dateLt a b = true) (dateRange s e) :=
  dateRangeAux_pairwise _ s e

/-! ### Claim theorems -/

/-- C9: the punch indexer puts a record into the bucket of its employee
code and of the date prefix of its timestamp exactly when both fields are
non-empty; such a record is in no other bucket, and a record with an empty
employee code or timestamp is in no bucket at all (dropped without error —
the indexer is a total function). -/
theorem punch_indexer_buckets (txs : List Tx) (tx : Tx) (c d : String) :
    tx ∈ indexPunches txs c d ↔
      tx ∈ txs ∧ tx.emp_code ≠ "" ∧ tx.punch_time ≠ "" ∧
        c = tx.emp_code ∧ d = splitDate tx.punch_time := by
  rw [indexPunches_eq_filter, List.mem_filter]
  unfold bucketPred truthy
  simp only [Bool.and_eq_true, bne_iff_ne, ne_eq, decide_eq_true_eq]
  tauto

/-- C4: on every day of the aggregated range the rest-day rule fires
exactly on `weekday() == 6`, Python's Sunday (2024-01-07 was a Sunday): a
Sunday with punches only increments `present` (required days and both
detail lists untouched), a Sunday without punches changes nothing, and
every non-Sunday day increments `work_days_required` by one. -/
theorem weekend_policy_sunday (lt : TimeOfDay) (pm : String → String → List Tx)
    (code : String) (st : Stats) (s e day : Date)
    (hday : day ∈ dateRange s e) :
    (pyWeekday day = 6 → pm code (fmtDate day) ≠ [] →
        dayStep lt pm code st day = .ok { st with present := st.present + 1 }) ∧
    (pyWeekday day = 6 → pm code (fmtDate day) = [] →
        dayStep lt pm code st day = .ok st) ∧
    (pyWeekday day ≠ 6 → ∀ st', dayStep lt pm code st day = .ok st' →
        st'.work_days_required = st.work_days_required + 1) ∧
    pyWeekday ⟨2024, 1, 7⟩ = 6 := by
  refine ⟨?_, ?_, ?_, by decide⟩
  · intro h6 hp
    exact dayStep_weekend_worked lt pm code st day h6 hp
  · intro h6 hp
    exact dayStep_weekend_idle lt pm code st day h6 hp
  · intro h6 st' h
    rcases dayStep_ok_cases lt pm code st day st' h with
      ⟨h6', _, _⟩ | ⟨h6', _, _⟩ | ⟨_, _, hst⟩ | ⟨_, _, c1, _⟩
    · exact absurd h6' h6
    · exact absurd h6' h6
    · rw [hst]
    · exact c1

/-- Witness for C4 at a concrete Sunday inside a one-day range. -/
theorem weekend_policy_sunday_witness :
    ((⟨2024, 1, 7⟩ : Date) ∈ dateRange ⟨2024, 1, 7⟩ ⟨2024, 1, 7⟩) ∧
    (pyWeekday ⟨2024, 1, 7⟩ = 6 →
      (fun _ _ => [(⟨"E1", "2024-01-07 09:00:00"⟩ : Tx)]) "E1" (fmtDate ⟨2024, 1, 7⟩) ≠ [] →
      dayStep ⟨8, 5, 0⟩ (fun _ _ => [⟨"E1", "2024-01-07 09:00:00"⟩]) "E1" initStats ⟨2024, 1, 7⟩ =
        .ok { initStats with present := initStats.present + 1 }) := by
  refine ⟨by decide, ?_⟩
  exact (weekend_policy_sunday ⟨8, 5, 0⟩ (fun _ _ => [⟨"E1", "2024-01-07 09:00:00"⟩])
    "E1" initStats ⟨2024, 1, 7⟩ ⟨2024, 1, 7⟩ ⟨2024, 1, 7⟩ (by decide)).1

/-- C7: each of the three report endpoints returns exactly the aggregated
employees whose stats have `late > 0` or `absent > 0`; an employee with
both counters zero is excluded regardless of `present`. -/
theorem report_endpoints_filter (lt : TimeOfDay) (employees : List Employee)
    (txs : List Tx) (now : DT) (month year : Option Nat)
    (allm allw allp : List Report)
    (hm : calculate_attendance_stats lt employees txs
      (monthlyPeriod now month year).1 (monthlyPeriod now month year).2 = .ok allm)
    (hw : calculate_attendance_stats lt employees txs
      (weeklyPeriod now).1 (weeklyPeriod now).2 = .ok allw)
    (hp : calculate_attendance_stats lt employees txs
      (monthlyPrevPeriod now).1 (monthlyPrevPeriod now).2 = .ok allp) :
    attendance_report_monthly lt employees txs now month year = .ok (reportFilter allm) ∧
    attendance_report_weekly lt employees txs now = .ok (reportFilter allw) ∧
    attendance_report_monthly_previous lt employees txs now = .ok (reportFilter allp) ∧
    (∀ (l : List Report) (r : Report),
      r ∈ reportFilter l ↔ r ∈ l ∧ (0 < r.stats.late ∨ 0 < r.stats.absent)) := by
  refine ⟨?_, ?_, ?_, ?_⟩
  · unfold attendance_report_monthly
    dsimp only
    rw [hm, except_ok_bind]
  · unfold attendance_report_weekly
    dsimp only
    rw [hw, except_ok_bind]
  · unfold attendance_report_monthly_previous
    dsimp only
    rw [hp, except_ok_bind]
  · intro l r
    unfold reportFilter
    rw [List.mem_filter]
    simp

/-- Witness for C7 on an empty roster and punch set. -/
theorem report_endpoints_filter_witness :
    attendance_report_monthly ⟨8, 5, 0⟩ [] [] ⟨2024, 3, 10, 12, 0, 0⟩ none none = .ok [] ∧
    attendance_report_weekly ⟨8, 5, 0⟩ [] [] ⟨2024, 3, 10, 12, 0, 0⟩ = .ok [] ∧
    attendance_report_monthly_previous ⟨8, 5, 0⟩ [] [] ⟨2024, 3, 10, 12, 0, 0⟩ = .ok [] := by
  have h := report_endpoints_filter ⟨8, 5, 0⟩ [] [] ⟨2024, 3, 10, 12, 0, 0⟩ none none
    [] [] [] rfl rfl rfl
  exact ⟨h.1, h.2.1, h.2.2.1⟩

/-- C8: the explicit-month report for February 2024 computes the period
2024-02-01 00:00:00 through 2024-02-29 23:59:59 (leap day included), and
the aggregation's generated date list for that period is exactly the 29
calendar days of February 2024 in order. -/
theorem leap_month_period :
    (∀ now : DT, monthlyPeriod now (some 2) (some 2024) =
      (⟨2024, 2, 1, 0, 0, 0⟩, ⟨2024, 2, 29, 23, 59, 59⟩)) ∧
    fmtDT ⟨2024, 2, 1, 0, 0, 0⟩ = "2024-02-01 00:00:00" ∧
    fmtDT ⟨2024, 2, 29, 23, 59, 59⟩ = "2024-02-29 23:59:59" ∧
    (⟨2024, 2, 1, 0, 0, 0⟩ : DT).date = ⟨2024, 2, 1⟩ ∧
    (⟨2024, 2, 29, 23, 59, 59⟩ : DT).date = ⟨2024, 2, 29⟩ ∧
    dateRange ⟨2024, 2, 1⟩ ⟨2024, 2, 29⟩ =
      (List.range 29).map (fun i => ⟨2024, 2, i + 1⟩) := by
  refine ⟨fun now => rfl, by decide, by decide, rfl, rfl, by decide⟩

/-- C1 counterexample: an employee whose only punch falls on a Sunday of
the range gets `present = 1` but `work_days_required = 0` and
`absent = 0`, so `present + absent ≠ required` (2024-01-07 is a Sunday). -/
theorem weekend_punch_breaks_identity :
    calculate_attendance_stats ⟨8, 5, 0⟩ [⟨"E1", "A", "B"⟩]
        [⟨"E1", "2024-01-07 09:00:00"⟩] ⟨2024, 1, 7, 0, 0, 0⟩ ⟨2024, 1, 7, 23, 59, 59⟩ =
      .ok [⟨"E1", "A", "B", ⟨0, 1, 0, 0, [], []⟩⟩] ∧
    ¬ ((⟨0, 1, 0, 0, [], []⟩ : Stats).present + (⟨0, 1, 0, 0, [], []⟩ : Stats).absent =
        (⟨0, 1, 0, 0, [], []⟩ : Stats).work_days_required) := by
  exact ⟨rfl, by decide⟩

/-- C1 amended: for every employee in every successful aggregation,
`present + absent` equals `work_days_required` plus the number of Sundays
of the range on which that employee has at least one indexed punch
(weekend work inflates `present` without touching `required`); the
original identity holds exactly for employees without Sunday punches. -/
theorem stats_counters_identity (lt : TimeOfDay) (employees : List Employee)
    (txs : List Tx) (s e : DT) (l : List Report)
    (h : calculate_attendance_stats lt employees txs s e = .ok l) :
    ∀ r ∈ l, r.stats.present + r.stats.absent =
      r.stats.work_days_required +
        weekendWorked (indexPunches txs) r.emp_code (dateRange s.date e.date) := by
  intro r hr
  obtain ⟨rd, hrd, hl⟩ := (calculate_ok_iff lt employees txs s e l).mp h
  have hr' : r ∈ rd := by
    rw [hl] at hr
    exact (mem_sortByLe _ rd r).mp hr
  obtain ⟨emp, _, _, st, hst, hrrep⟩ :=
    calcReports_mem lt (indexPunches txs) (dateRange s.date e.date) employees rd hrd r hr'
  have hspec := dayFold_spec lt (indexPunches txs) emp.emp_code
    (dateRange s.date e.date) initStats st hst
  obtain ⟨h1, h2, _, _, _, _⟩ := hspec
  subst hrrep
  unfold mkReport
  dsimp only
  unfold initStats at h1 h2
  dsimp only at h1 h2
  omega

/-- Witness for C1 amended at the counterexample input: one Sunday worked,
so present + absent = required + 1. -/
theorem stats_counters_identity_witness :
    (⟨"E1", "A", "B", ⟨0, 1, 0, 0, [], []⟩⟩ : Report).stats.present +
      (⟨"E1", "A", "B", ⟨0, 1, 0, 0, [], []⟩⟩ : Report).stats.absent =
    (⟨"E1", "A", "B", ⟨0, 1, 0, 0, [], []⟩⟩ : Report).stats.work_days_required +
      weekendWorked (indexPunches [⟨"E1", "2024-01-07 09:00:00"⟩])
        (⟨"E1", "A", "B", ⟨0, 1, 0, 0, [], []⟩⟩ : Report).emp_code
        (dateRange (⟨2024, 1, 7, 0, 0, 0⟩ : DT).date (⟨2024, 1, 7, 23, 59, 59⟩ : DT).date) :=
  stats_counters_identity ⟨8, 5, 0⟩ [⟨"E1", "A", "B"⟩] [⟨"E1", "2024-01-07 09:00:00"⟩]
    ⟨2024, 1, 7, 0, 0, 0⟩ ⟨2024, 1, 7, 23, 59, 59⟩ [⟨"E1", "A", "B", ⟨0, 1, 0, 0, [], []⟩⟩]
    rfl ⟨"E1", "A", "B", ⟨0, 1, 0, 0, [], []⟩⟩ (List.mem_singleton.mpr rfl)

/-- C5: every roster employee with a non-empty code appears in a
successful aggregation's output, and an employee with no transactions at
all over a range with exactly five non-Sunday days is fully absent:
`absent = 5`, five absent detail entries, `late = 0`. -/
theorem zero_punch_employee_stats (lt : TimeOfDay) (employees : List Employee)
    (txs : List Tx) (s e : DT) (l : List Report)
    (h : calculate_attendance_stats lt employees txs s e = .ok l) :
    (∀ emp ∈ employees, emp.emp_code ≠ "" → ∃ r ∈ l, r.emp_code = emp.emp_code) ∧
    (∀ emp ∈ employees, emp.emp_code ≠ "" →
      (∀ tx ∈ txs, tx.emp_code ≠ emp.emp_code) →
      countWeekdays (dateRange s.date e.date) = 5 →
      ∃ r ∈ l, r.emp_code = emp.emp_code ∧ r.stats.absent = 5 ∧
        r.stats.absent_details.length = 5 ∧ r.stats.late = 0) := by
  obtain ⟨rd, hrd, hl⟩ := (calculate_ok_iff lt employees txs s e l).mp h
  have hmem : ∀ r : Report, r ∈ l ↔ r ∈ rd := by
    intro r
    rw [hl]
    exact mem_sortByLe _ rd r
  constructor
  · intro emp hm hc
    obtain ⟨st, _, hin⟩ :=
      calcReports_exists lt (indexPunches txs) (dateRange s.date e.date)
        employees rd hrd emp hm hc
    exact ⟨mkReport emp st, (hmem _).mpr hin, rfl⟩
  · intro emp hm hc hnp h5
    obtain ⟨st, hst, hin⟩ :=
      calcReports_exists lt (indexPunches txs) (dateRange s.date e.date)
        employees rd hrd emp hm hc
    have hempty : ∀ d ∈ dateRange s.date e.date,
        indexPunches txs emp.emp_code (fmtDate d) = [] := by
      intro d _
      rw [indexPunches_eq_filter]
      rw [List.filter_eq_nil]
      intro tx htx
      unfold bucketPred
      have := hnp tx htx
      simp [this]
      intro h1 _ h2
      exact absurd h2.symm this
    have hcomp := dayFold_no_punches lt (indexPunches txs) emp.emp_code
      (dateRange s.date e.date) hempty initStats
    unfold calcEmployeeStats at hst
    rw [hcomp] at hst
    have hstv := Except.ok.inj hst
    unfold countWeekdays at h5
    refine ⟨mkReport emp st, (hmem _).mpr hin, rfl, ?_, ?_, ?_⟩ <;>
      (rw [← hstv]; unfold mkReport initStats; dsimp only)
    · unfold countWeekdays
      omega
    · rw [List.nil_append, List.length_map, ← List.countP_eq_length_filter]
      exact h5

/-- Witness for C5: one employee, no transactions, the work week
2024-01-01 (Monday) through 2024-01-05 (Friday). -/
theorem zero_punch_employee_stats_witness :
    ∃ r ∈ [(⟨"E1", "A", "B", ⟨5, 0, 0, 5,
        [], ["2024-01-01", "2024-01-02", "2024-01-03", "2024-01-04", "2024-01-05"]⟩⟩ : Report)],
      r.emp_code = "E1" ∧ r.stats.absent = 5 ∧
      r.stats.absent_details.length = 5 ∧ r.stats.late = 0 := by
  have h := zero_punch_employee_stats ⟨8, 5, 0⟩ [⟨"E1", "A", "B"⟩] []
    ⟨2024, 1, 1, 0, 0, 0⟩ ⟨2024, 1, 5, 23, 59, 59⟩
    [⟨"E1", "A", "B", ⟨5, 0, 0, 5,
      [], ["2024-01-01", "2024-01-02", "2024-01-03", "2024-01-04", "2024-01-05"]⟩⟩]
    rfl
  exact h.2 ⟨"E1", "A", "B"⟩ (List.mem_singleton.mpr rfl) (by decide)
    (fun tx htx => absurd htx (List.not_mem_nil tx)) (by decide)

/-- C2 counterexample: an employee-day whose punch list contains the
malformed timestamp `"2024-01-01 99bad"` (unparseable) alongside a
well-formed punch that sorts first as a string is classified successfully:
the report comes back `ok` with the day counted present, the malformed
punch silently never parsed — classification does not fail for every
malformed punch in the bucket. -/
theorem malformed_punch_silently_ignored :
    parseTS "2024-01-01 99bad" = none ∧
    indexPunches [⟨"E1", "2024-01-01 08:00:00"⟩, ⟨"E1", "2024-01-01 99bad"⟩]
      "E1" "2024-01-01" =
      [⟨"E1", "2024-01-01 08:00:00"⟩, ⟨"E1", "2024-01-01 99bad"⟩] ∧
    calculate_attendance_stats ⟨8, 5, 0⟩ [⟨"E1", "A", "B"⟩]
        [⟨"E1", "2024-01-01 08:00:00"⟩, ⟨"E1", "2024-01-01 99bad"⟩]
        ⟨2024, 1, 1, 0, 0, 0⟩ ⟨2024, 1, 1, 23, 59, 59⟩ =
      .ok [⟨"E1", "A", "B", ⟨1, 1, 0, 0, [], []⟩⟩] := by
  exact ⟨rfl, rfl, rfl⟩

/-- C2 amended: the classification aborts the whole report (the
aggregator returns an error) exactly in the case the code actually
parses: when, for some roster employee with a non-empty code and some
non-Sunday day of the range, the string-wise first punch of that
employee-day bucket has an unparseable timestamp. Malformed punches that
sort after a well-formed first punch, or whose date prefix matches no day
of the range, are silently ignored (see the counterexample). -/
theorem malformed_min_punch_aborts (lt : TimeOfDay) (employees : List Employee)
    (txs : List Tx) (s e : DT) (emp : Employee) (day : Date)
    (first : Tx) (rest : List Tx)
    (hm : emp ∈ employees) (hc : emp.emp_code ≠ "")
    (hday : day ∈ dateRange s.date e.date) (h6 : pyWeekday day ≠ 6)
    (hsort : sortByLe (fun a b => strLe a.punch_time b.punch_time)
        (indexPunches txs emp.emp_code (fmtDate day)) = first :: rest)
    (hparse : parseTS first.punch_time = none) :
    ∃ err, calculate_attendance_stats lt employees txs s e = .error err := by
  have hfail : ∀ st : Stats,
      ∃ er, dayStep lt (indexPunches txs) emp.emp_code st day = .error er :=
    fun st => dayStep_error_of_badparse lt (indexPunches txs) emp.emp_code st day
      first rest h6 hsort hparse
  obtain ⟨er, her⟩ := foldlM_error_of_exists (dayStep lt (indexPunches txs) emp.emp_code)
    (dateRange s.date e.date) day hday hfail initStats
  have hnotok : ∀ st, calcEmployeeStats lt (indexPunches txs) emp.emp_code
      (dateRange s.date e.date) ≠ .ok st := by
    intro st hcon
    unfold calcEmployeeStats at hcon
    rw [her] at hcon
    cases hcon
  have hrep := calcReports_error lt (indexPunches txs) (dateRange s.date e.date)
    employees emp hm hc hnotok
  cases hres : calculate_attendance_stats lt employees txs s e with
  | error er2 => exact ⟨er2, rfl⟩
  | ok l =>
    obtain ⟨rd, hrd, _⟩ := (calculate_ok_iff lt employees txs s e l).mp hres
    exact absurd hrd (hrep rd)

/-- Witness for C2 amended: a single malformed punch (which is therefore
the string-wise first of its bucket) aborts the whole report. -/
theorem malformed_min_punch_aborts_witness :
    ∃ err, calculate_attendance_stats ⟨8, 5, 0⟩ [⟨"E1", "A", "B"⟩]
      [⟨"E1", "2024-01-01 bad"⟩] ⟨2024, 1, 1, 0, 0, 0⟩ ⟨2024, 1, 1, 23, 59, 59⟩ =
      .error err :=
  malformed_min_punch_aborts ⟨8, 5, 0⟩ [⟨"E1", "A", "B"⟩] [⟨"E1", "2024-01-01 bad"⟩]
    ⟨2024, 1, 1, 0, 0, 0⟩ ⟨2024, 1, 1, 23, 59, 59⟩ ⟨"E1", "A", "B"⟩ ⟨2024, 1, 1⟩
    ⟨"E1", "2024-01-01 bad"⟩ []
    (List.mem_singleton.mpr rfl) (by decide) (by decide) (by decide) rfl rfl

theorem dateStrLt_fmtDate (d1 d2 : Date) (h1 : validDate d1) (h2 : validDate d2)
    (hlt : dateLt d1 d2 = true) : dateStrLt (fmtDate d1) (fmtDate d2) := by
  obtain ⟨a1, b1, c1, e1, f1, g1⟩ := h1
  obtain ⟨a2, b2, c2, e2, f2, g2⟩ := h2
  have hm1 := daysInMonth_le d1.y d1.m
  have hm2 := daysInMonth_le d2.y d2.m
  exact ⟨d1, d2,
    parseDateStr_fmtDate d1 b1 (by omega) (by omega),
    parseDateStr_fmtDate d2 b2 (by omega) (by omega), hlt⟩

/-- C6: in every successful aggregation over a well-formed date range,
each employee's `late_details` length equals `late` and `absent_details`
length equals `absent`, both detail lists are strictly date-ascending,
and the returned list is sorted by employee code ascending. -/
theorem details_lengths_and_ordering (lt : TimeOfDay) (employees : List Employee)
    (txs : List Tx) (s e : DT) (l : List Report)
    (h : calculate_attendance_stats lt employees txs s e = .ok l)
    (hs : validDate s.date) (he : e.date.y ≤ 9999) :
    (∀ r ∈ l, r.stats.late_details.length = r.stats.late ∧
      r.stats.absent_details.length = r.stats.absent ∧
      List.Pairwise dateStrLt (r.stats.late_details.map LateDetail.date) ∧
      List.Pairwise dateStrLt r.stats.absent_details) ∧
    List.Pairwise (fun a b => strLe a.emp_code b.emp_code = true) l := by
  obtain ⟨rd, hrd, hl⟩ := (calculate_ok_iff lt employees txs s e l).mp h
  have hvalid : ∀ x ∈ dateRange s.date e.date, validDate x :=
    fun x hx => dateRange_mem_valid s.date e.date x hs he hx
  have hpwdates := dateRange_pairwise s.date e.date
  constructor
  · intro r hr
    have hr' : r ∈ rd := by
      rw [hl] at hr
      exact (mem_sortByLe _ rd r).mp hr
    obtain ⟨emp, _, _, st, hst, hrep⟩ :=
      calcReports_mem lt (indexPunches txs) (dateRange s.date e.date) employees rd hrd r hr'
    obtain ⟨h1, h2, h3, h4, h5, ds, hds, h6⟩ :=
      dayFold_spec lt (indexPunches txs) emp.emp_code (dateRange s.date e.date)
        initStats st hst
    subst hrep
    unfold mkReport
    dsimp only
    unfold initStats at h3 h4 h5 h6
    dsimp only at h3 h4 h5 h6
    simp only [List.length_nil, List.map_nil, List.nil_append] at h3 h4 h5 h6
    refine ⟨by omega, ?_, ?_, ?_⟩
    · rw [h4, List.length_map]
      omega
    · rw [h6, List.pairwise_map]
      have hdspw : List.Pairwise (fun a b => dateLt a b = true) ds :=
        hpwdates.sublist hds
      refine hdspw.imp_of_mem ?_
      intro a b ha hb hab
      exact dateStrLt_fmtDate a b (hvalid a (hds.subset ha)) (hvalid b (hds.subset hb)) hab
    · rw [h4, List.pairwise_map]
      have hsub := List.filter_sublist
        (l := dateRange s.date e.date)
        (p := fun d => !(pyWeekday d == 6) && (indexPunches txs emp.emp_code (fmtDate d)).isEmpty)
      have hfpw : List.Pairwise (fun a b => dateLt a b = true)
          ((dateRange s.date e.date).filter
            (fun d => !(pyWeekday d == 6) && (indexPunches txs emp.emp_code (fmtDate d)).isEmpty)) :=
        hpwdates.sublist hsub
      refine hfpw.imp_of_mem ?_
      intro a b ha hb hab
      exact dateStrLt_fmtDate a b (hvalid a (hsub.subset ha)) (hvalid b (hsub.subset hb)) hab
  · rw [hl]
    refine pairwise_sortByLe _ ?_ ?_ rd
    · intro a b
      exact strLe_total a.emp_code b.emp_code
    · intro a b c hab hbc
      exact strLe_trans _ _ _ hab hbc

/-- Witness for C6: one employee over 2024-01-01..03 with a single late
punch on the 2nd — one late detail, two date-ascending absent details. -/
theorem details_lengths_and_ordering_witness :
    (⟨"E1", "A", "B", ⟨3, 1, 1, 2, [⟨"2024-01-02", "2024-01-02 09:00:00", "0:55:00"⟩],
        ["2024-01-01", "2024-01-03"]⟩⟩ : Report).stats.late_details.length =
      (⟨"E1", "A", "B", ⟨3, 1, 1, 2, [⟨"2024-01-02", "2024-01-02 09:00:00", "0:55:00"⟩],
        ["2024-01-01", "2024-01-03"]⟩⟩ : Report).stats.late ∧
    (⟨"E1", "A", "B", ⟨3, 1, 1, 2, [⟨"2024-01-02", "2024-01-02 09:00:00", "0:55:00"⟩],
        ["2024-01-01", "2024-01-03"]⟩⟩ : Report).stats.absent_details.length =
      (⟨"E1", "A", "B", ⟨3, 1, 1, 2, [⟨"2024-01-02", "2024-01-02 09:00:00", "0:55:00"⟩],
        ["2024-01-01", "2024-01-03"]⟩⟩ : Report).stats.absent ∧
    List.Pairwise dateStrLt ((⟨"E1", "A", "B", ⟨3, 1, 1, 2,
        [⟨"2024-01-02", "2024-01-02 09:00:00", "0:55:00"⟩],
        ["2024-01-01", "2024-01-03"]⟩⟩ : Report).stats.late_details.map LateDetail.date) ∧
    List.Pairwise dateStrLt (⟨"E1", "A", "B", ⟨3, 1, 1, 2,
        [⟨"2024-01-02", "2024-01-02 09:00:00", "0:55:00"⟩],
        ["2024-01-01", "2024-01-03"]⟩⟩ : Report).stats.absent_details :=
  (details_lengths_and_ordering ⟨8, 5, 0⟩ [⟨"E1", "A", "B"⟩]
    [⟨"E1", "2024-01-02 09:00:00"⟩] ⟨2024, 1, 1, 0, 0, 0⟩ ⟨2024, 1, 3, 23, 59, 59⟩
    [⟨"E1", "A", "B", ⟨3, 1, 1, 2, [⟨"2024-01-02", "2024-01-02 09:00:00", "0:55:00"⟩],
      ["2024-01-01", "2024-01-03"]⟩⟩]
    rfl (by unfold validDate; decide) (by decide)).1 _ (List.mem_singleton.mpr rfl)

/-- C3: on a weekday with at least one punch, all punches being canonical
`"YYYY-MM-DD HH:MM:SS"` renderings of instants of that day, the daily
classifier marks the day Late exactly when the earliest punch instant is
strictly later than the threshold instant (date combined with the
late-threshold time); an earliest punch equal to the threshold stays
on-time, and the recorded detail carries
`late_by = str(first_punch − threshold)`. -/
theorem daily_late_classification (lt : TimeOfDay) (pm : String → String → List Tx)
    (code : String) (st : Stats) (day : Date)
    (hv : validDate day)
    (hlt1 : lt.hh ≤ 23) (hlt2 : lt.mi ≤ 59) (hlt3 : lt.ss ≤ 59)
    (h6 : pyWeekday day ≠ 6)
    (hne : pm code (fmtDate day) ≠ [])
    (hwf : ∀ tx ∈ pm code (fmtDate day), ∃ dt : DT,
      tx.punch_time = fmtDT dt ∧ dt.date = day ∧ dt.hh ≤ 23 ∧ dt.mi ≤ 59 ∧ dt.ss ≤ 59) :
    ∃ fp : DT, fp.date = day ∧
      (∃ tx ∈ pm code (fmtDate day), tx.punch_time = fmtDT fp) ∧
      (∀ tx ∈ pm code (fmtDate day), ∀ dt : DT, tx.punch_time = fmtDT dt →
        validDT dt → dtLe fp dt = true) ∧
      dayStep lt pm code st day = .ok (
        if dtLt (thresholdDT day lt) fp then
          { st with work_days_required := st.work_days_required + 1,
                    present := st.present + 1, late := st.late + 1,
                    late_details := st.late_details ++
                      [⟨fmtDate day, fmtDT fp,
                        strTimedelta (toSeconds fp - toSeconds (thresholdDT day lt))⟩] }
        else { st with work_days_required := st.work_days_required + 1,
                       present := st.present + 1 }) := by
  have htotal : ∀ a b : Tx, strLe a.punch_time b.punch_time = true ∨
      strLe b.punch_time a.punch_time = true :=
    fun a b => strLe_total a.punch_time b.punch_time
  have htrans : ∀ a b c : Tx, strLe a.punch_time b.punch_time = true →
      strLe b.punch_time c.punch_time = true →
      strLe a.punch_time c.punch_time = true :=
    fun a b c hab hbc => strLe_trans _ _ _ hab hbc
  have hlen : (sortByLe (fun a b => strLe a.punch_time b.punch_time)
      (pm code (fmtDate day))).length ≠ 0 := by
    rw [length_sortByLe]
    intro hcon
    exact hne (List.length_eq_zero.mp hcon)
  have hne2 : sortByLe (fun a b => strLe a.punch_time b.punch_time)
      (pm code (fmtDate day)) ≠ [] :=
    fun hcon => hlen (by rw [hcon]; rfl)
  obtain ⟨first, rest, hsort⟩ := List.exists_cons_of_ne_nil hne2
  obtain ⟨hfmem, hmin⟩ := sortByLe_head_min _ htotal htrans
    (pm code (fmtDate day)) first rest hsort
  obtain ⟨fp, hfp1, hfp2, b1, b2, b3⟩ := hwf first hfmem
  have hvfp : validDT fp := ⟨hfp2 ▸ hv, b1, b2, b3⟩
  have hparse : parseTS first.punch_time = some fp := by
    rw [hfp1]
    exact parseTS_fmtDT fp hvfp
  refine ⟨fp, hfp2, ⟨first, hfmem, hfp1⟩, ?_, ?_⟩
  · intro tx htx dt hdt hvdt
    obtain ⟨dt', h1', h2', b1', b2', b3'⟩ := hwf tx htx
    have hvdt' : validDT dt' := ⟨h2' ▸ hv, b1', b2', b3'⟩
    have hdd : dt = dt' := by
      have : fmtDT dt = fmtDT dt' := by rw [← hdt, ← h1']
      have hp1 : parseTS (fmtDT dt) = some dt := parseTS_fmtDT dt hvdt
      have hp2 : parseTS (fmtDT dt') = some dt' := parseTS_fmtDT dt' hvdt'
      rw [this, hp2] at hp1
      exact (Option.some.inj hp1).symm
    subst hdd
    have hstr : strLe first.punch_time tx.punch_time = true := hmin tx htx
    rw [hfp1, h1'] at hstr
    exact (strLe_fmtDT_same_date fp dt (by rw [hfp2, h2']) b1 b2 b3 b1' b2' b3').mp hstr
  · have heq := dayStep_weekday_eq lt pm code st day first rest fp h6 hsort hparse
    rw [hfp1] at heq
    exact heq

/-- Witness for C3: late threshold 08:05:00, single punch 08:06:00 on
Monday 2024-01-08 — classified late with `late_by = "0:01:00"`; the same
day with a punch at exactly 08:05:00 stays on-time. -/
theorem daily_late_classification_witness :
    (∃ fp : DT, fp.date = ⟨2024, 1, 8⟩ ∧
      (∃ tx ∈ (fun _ _ => [(⟨"E1", "2024-01-08 08:06:00"⟩ : Tx)])
          "E1" (fmtDate ⟨2024, 1, 8⟩), tx.punch_time = fmtDT fp) ∧
      (∀ tx ∈ (fun _ _ => [(⟨"E1", "2024-01-08 08:06:00"⟩ : Tx)])
          "E1" (fmtDate ⟨2024, 1, 8⟩), ∀ dt : DT, tx.punch_time = fmtDT dt →
        validDT dt → dtLe fp dt = true) ∧
      dayStep ⟨8, 5, 0⟩ (fun _ _ => [⟨"E1", "2024-01-08 08:06:00"⟩]) "E1" initStats
          ⟨2024, 1, 8⟩ = .ok (
        if dtLt (thresholdDT ⟨2024, 1, 8⟩ ⟨8, 5, 0⟩) fp then
          { initStats with
              work_days_required := initStats.work_days_required + 1,
              present := initStats.present + 1, late := initStats.late + 1,
              late_details := initStats.late_details ++
                [⟨fmtDate ⟨2024, 1, 8⟩, fmtDT fp,
                  strTimedelta (toSeconds fp -
                    toSeconds (thresholdDT ⟨2024, 1, 8⟩ ⟨8, 5, 0⟩))⟩] }
        else { initStats with
                 work_days_required := initStats.work_days_required + 1,
                 present := initStats.present + 1 })) ∧
    strTimedelta (toSeconds ⟨2024, 1, 8, 8, 6, 0⟩ -
      toSeconds (thresholdDT ⟨2024, 1, 8⟩ ⟨8, 5, 0⟩)) = "0:01:00" ∧
    dayStep ⟨8, 5, 0⟩ (fun _ _ => [⟨"E1", "2024-01-08 08:06:00"⟩]) "E1" initStats
      ⟨2024, 1, 8⟩ = .ok ⟨1, 1, 1, 0,
        [⟨"2024-01-08", "2024-01-08 08:06:00", "0:01:00"⟩], []⟩ ∧
    dayStep ⟨8, 5, 0⟩ (fun _ _ => [⟨"E1", "2024-01-08 08:05:00"⟩]) "E1" initStats
      ⟨2024, 1, 8⟩ = .ok ⟨1, 1, 0, 0, [], []⟩ := by
  refine ⟨?_, by decide, rfl, rfl⟩
  exact daily_late_classification ⟨8, 5, 0⟩ (fun _ _ => [⟨"E1", "2024-01-08 08:06:00"⟩])
    "E1" initStats ⟨2024, 1, 8⟩ (by unfold validDate; decide)
    (by decide) (by decide) (by decide) (by decide) (by decide)
    (by
      intro tx htx
      rcases List.mem_singleton.mp htx with h
      subst h
      exact ⟨⟨2024, 1, 8, 8, 6, 0⟩, by decide, rfl, by decide, by decide, by decide⟩)

/-! ### Lemmas for the simple range summary -/

theorem mapM_ok_length {ε α β : Type} (f : α → Except ε β) :
    ∀ (l : List α) (l2 : List β), l.mapM f = .ok l2 → l2.length = l.length := by
  intro l
  induction l with
  | nil =>
    intro l2 h
    simp only [List.mapM_nil] at h
    cases h
    rfl
  | cons a as ih =>
    intro l2 h
    rw [List.mapM_cons] at h
    cases hfa : f a with
    | error e =>
      rw [hfa, except_error_bind] at h
      simp at h
    | ok b =>
      rw [hfa, except_ok_bind] at h
      cases has : as.mapM f with
      | error e =>
        rw [has, except_error_bind] at h
        simp at h
      | ok bs =>
        rw [has, except_ok_bind] at h
        have hb : b :: bs = l2 := Except.ok.inj h
        rw [← hb]
        simp [ih bs has]

theorem mapM_ok_mem {ε α β : Type} (f : α → Except ε β) :
    ∀ (l : List α) (l2 : List β), l.mapM f = .ok l2 →
      ∀ b ∈ l2, ∃ a ∈ l, f a = .ok b := by
  intro l
  induction l with
  | nil =>
    intro l2 h b hb
    simp only [List.mapM_nil] at h
    cases h
    cases hb
  | cons a as ih =>
    intro l2 h b hb
    rw [List.mapM_cons] at h
    cases hfa : f a with
    | error e =>
      rw [hfa, except_error_bind] at h
      simp at h
    | ok b0 =>
      rw [hfa, except_ok_bind] at h
      cases has : as.mapM f with
      | error e =>
        rw [has, except_error_bind] at h
        simp at h
      | ok bs =>
        rw [has, except_ok_bind] at h
        have hb0 : b0 :: bs = l2 := Except.ok.inj h
        rw [← hb0] at hb
        rcases List.mem_cons.mp hb with hb' | hb'
        · exact ⟨a, List.mem_cons_self a as, by rw [hfa, hb']⟩
        · obtain ⟨a2, ha2, hfa2⟩ := ih bs has b hb'
          exact ⟨a2, List.mem_cons_of_mem _ ha2, hfa2⟩

theorem addToGroup_inv (R : List Tx) (rec : Tx) (hrec : rec ∈ R) :
    ∀ (g : List (String × List Tx)),
    (∀ p ∈ g, p.2 ≠ [] ∧ ∀ tx ∈ p.2, tx ∈ R ∧ tx.emp_code = p.1) →
    ∀ p ∈ addToGroup g rec, p.2 ≠ [] ∧ ∀ tx ∈ p.2, tx ∈ R ∧ tx.emp_code = p.1 := by
  intro g
  induction g with
  | nil =>
    intro _ p hp
    simp only [addToGroup, List.mem_singleton] at hp
    subst hp
    refine ⟨by simp, ?_⟩
    intro tx htx
    rcases List.mem_singleton.mp htx with h
    subst h
    exact ⟨hrec, rfl⟩
  | cons q qs ih =>
    intro hg p hp
    obtain ⟨c, lst⟩ := q
    unfold addToGroup at hp
    by_cases hc : c = rec.emp_code
    · rw [if_pos hc] at hp
      rcases List.mem_cons.mp hp with hp' | hp'
      · subst hp'
        refine ⟨by simp, ?_⟩
        intro tx htx
        rcases List.mem_append.mp htx with htx' | htx'
        · exact (hg (c, lst) (List.mem_cons_self _ _)).2 tx htx'
        · rcases List.mem_singleton.mp htx' with h
          subst h
          exact ⟨hrec, hc.symm⟩
      · exact hg p (List.mem_cons_of_mem _ hp')
    · rw [if_neg hc] at hp
      rcases List.mem_cons.mp hp with hp' | hp'
      · subst hp'
        exact hg (c, lst) (List.mem_cons_self _ _)
      · exact ih (fun x hx => hg x (List.mem_cons_of_mem _ hx)) p hp'

theorem groupByCode_inv (records : List Tx) :
    ∀ p ∈ groupByCode records, p.2 ≠ [] ∧
      ∀ tx ∈ p.2, tx ∈ records ∧ tx.emp_code = p.1 := by
  unfold groupByCode
  suffices h : ∀ (recs : List Tx) (g : List (String × List Tx)),
      (∀ r ∈ recs, r ∈ records) →
      (∀ p ∈ g, p.2 ≠ [] ∧ ∀ tx ∈ p.2, tx ∈ records ∧ tx.emp_code = p.1) →
      ∀ p ∈ recs.foldl addToGroup g, p.2 ≠ [] ∧
        ∀ tx ∈ p.2, tx ∈ records ∧ tx.emp_code = p.1 by
    intro p hp
    exact h records [] (fun r hr => hr) (by intro p hp; cases hp) p hp
  intro recs
  induction recs with
  | nil =>
    intro g _ hg p hp
    exact hg p hp
  | cons r rs ih =>
    intro g hr hg p hp
    rw [List.foldl_cons] at hp
    exact ih (addToGroup g r) (fun x hx => hr x (List.mem_cons_of_mem _ hx))
      (addToGroup_inv records r (hr r (List.mem_cons_self _ _)) g hg) p hp

theorem buildSummaryRow_ok (ep : String × List Tx) (row : SummaryRow)
    (h : buildSummaryRow ep = .ok row) :
    row.emp_code = ep.1 ∧ row.total_punches = ep.2.length ∧ 1 ≤ row.total_punches ∧
    ∃ df dl, parseTS row.first_punch_time = some df ∧
      parseTS row.last_punch_time = some dl ∧ dtLe df dl = true := by
  unfold buildSummaryRow at h
  cases hk : ep.2.mapM (fun tx =>
      match parseTS tx.punch_time with
      | some dt => Except.ok (dt, tx)
      | none => Except.error ("time data " ++ tx.punch_time ++ " does not match format")) with
  | error e =>
    rw [hk, except_error_bind] at h
    simp at h
  | ok keyed =>
    rw [hk, except_ok_bind] at h
    have hparse : ∀ p ∈ keyed, parseTS p.2.punch_time = some p.1 := by
      intro p hp
      obtain ⟨tx, _, hftx⟩ := mapM_ok_mem _ ep.2 keyed hk p hp
      cases hpt : parseTS tx.punch_time with
      | none =>
        rw [hpt] at hftx
        simp at hftx
      | some dt =>
        rw [hpt] at hftx
        simp only at hftx
        have := Except.ok.inj hftx
        rw [← this]
        exact hpt
    have htotal : ∀ a b : DT × Tx, dtLe a.1 b.1 = true ∨ dtLe b.1 a.1 = true :=
      fun a b => dtLe_total a.1 b.1
    have htrans : ∀ a b c : DT × Tx, dtLe a.1 b.1 = true → dtLe b.1 c.1 = true →
        dtLe a.1 c.1 = true :=
      fun a b c h1 h2 => dtLe_trans _ _ _ h1 h2
    cases hs : sortByLe (fun a b => dtLe a.1 b.1) keyed with
    | nil =>
      rw [hs] at h
      simp at h
    | cons first rest =>
      rw [hs] at h
      simp only at h
      have hrow := Except.ok.inj h
      have hfmem : first ∈ keyed := (mem_sortByLe _ keyed first).mp
        (hs ▸ List.mem_cons_self first rest)
      have hperm := sortByLe_perm (fun a b : DT × Tx => dtLe a.1 b.1) keyed
      rw [hs] at hperm
      have hlmem : (first :: rest).getLast (List.cons_ne_nil _ _) ∈ keyed :=
        hperm.mem_iff.mp (List.getLast_mem _)
      have hsorted := pairwise_sortByLe _ htotal htrans keyed
      rw [hs] at hsorted
      have hfl : dtLe first.1 ((first :: rest).getLast (List.cons_ne_nil _ _)).1 = true := by
        cases hr : rest with
        | nil =>
          subst hr
          rcases htotal first first with ht | ht <;> exact ht
        | cons r rs =>
          subst hr
          have hlr : (first :: r :: rs).getLast (List.cons_ne_nil _ _) ∈ r :: rs := by
            rw [List.getLast_cons (List.cons_ne_nil r rs)]
            exact List.getLast_mem _
          cases hsorted with
          | cons hhead _ => exact hhead _ hlr
      rw [← hrow]
      have hlen := mapM_ok_length _ ep.2 keyed hk
      have hslen : (first :: rest).length = keyed.length := by
        rw [← hs, length_sortByLe]
      refine ⟨rfl, ?_, ?_, first.1, ((first :: rest).getLast (List.cons_ne_nil _ _)).1,
        ?_, ?_, hfl⟩
      · dsimp only
        rw [hslen, hlen]
      · dsimp only
        rw [hslen, hlen]
        have : 1 ≤ (first :: rest).length := by simp
        omega
      · exact hparse first hfmem
      · exact hparse _ hlmem

theorem lateRows_subset (today : Date) (ltm : TimeOfDay) :
    ∀ (rows acc out : List SummaryRow),
    (rows.foldlM (fun acc row =>
      match parseTS row.first_punch_time with
      | none => .error ("time data " ++ row.first_punch_time ++ " does not match format")
      | some fp => .ok (if dtLt ⟨today.y, today.m, today.d, ltm.hh, ltm.mi, ltm.ss⟩ fp
          then acc ++ [row] else acc)) acc : Except String (List SummaryRow)) = .ok out →
    ∀ r ∈ out, r ∈ acc ∨ r ∈ rows := by
  intro rows
  induction rows with
  | nil =>
    intro acc out h r hr
    simp only [List.foldlM_nil] at h
    cases h
    exact Or.inl hr
  | cons row rs ih =>
    intro acc out h r hr
    rw [List.foldlM_cons] at h
    cases hp : parseTS row.first_punch_time with
    | none =>
      rw [hp] at h
      simp only at h
      rw [except_error_bind] at h
      simp at h
    | some fp =>
      rw [hp] at h
      simp only at h
      rw [except_ok_bind] at h
      rcases ih _ out h r hr with hacc | hrs
      · by_cases hlt : dtLt ⟨today.y, today.m, today.d, ltm.hh, ltm.mi, ltm.ss⟩ fp = true
        · rw [if_pos hlt] at hacc
          rcases List.mem_append.mp hacc with h1 | h1
          · exact Or.inl h1
          · exact Or.inr (List.mem_cons.mpr (Or.inl (List.mem_singleton.mp h1)))
        · rw [if_neg hlt] at hacc
          exact Or.inl hacc
      · exact Or.inr (List.mem_cons_of_mem _ hrs)

/-- C10: every row of the simple range summary has at least one punch
(`total_punches ≥ 1`), parseable first/last punch times with
`first ≤ last`, and an employee code that occurs among the fetched
records — employees with zero punches never appear; consequently the
today-late filter, which draws from these rows, only ever lists employees
with at least one punch. -/
theorem summary_rows_wellformed (records : List Tx) (rows : List SummaryRow)
    (h : build_attendance_summary records = .ok rows) :
    (∀ row ∈ rows, 1 ≤ row.total_punches ∧
      (∃ tx ∈ records, tx.emp_code = row.emp_code) ∧
      ∃ df dl, parseTS row.first_punch_time = some df ∧
        parseTS row.last_punch_time = some dl ∧ dtLe df dl = true) ∧
    (∀ (today : Date) (ltm : TimeOfDay) (out : List SummaryRow),
      lateRows today ltm rows = .ok out → ∀ row ∈ out, row ∈ rows) := by
  constructor
  · intro row hrow
    unfold build_attendance_summary at h
    cases hm : (groupByCode records).mapM buildSummaryRow with
    | error e =>
      rw [hm, except_error_bind] at h
      simp at h
    | ok summary =>
      rw [hm, except_ok_bind] at h
      have hrows : rows = sortByLe (fun a b => strLe a.emp_code b.emp_code) summary :=
        (Except.ok.inj h).symm
      have hrow' : row ∈ summary := by
        rw [hrows] at hrow
        exact (mem_sortByLe _ summary row).mp hrow
      obtain ⟨ep, hep, hbuild⟩ := mapM_ok_mem _ (groupByCode records) summary hm row hrow'
      obtain ⟨hcode, hlen, hone, df, dl, hdf, hdl, hfl⟩ := buildSummaryRow_ok ep row hbuild
      obtain ⟨hne, hmem⟩ := groupByCode_inv records ep hep
      obtain ⟨tx0, htx0⟩ := List.exists_mem_of_ne_nil ep.2 hne
      refine ⟨hone, ⟨tx0, (hmem tx0 htx0).1, ?_⟩, df, dl, hdf, hdl, hfl⟩
      rw [(hmem tx0 htx0).2, hcode]
  · intro today ltm out hout row hrow
    rcases lateRows_subset today ltm rows [] out hout row hrow with h1 | h1
    · cases h1
    · exact h1

/-- Witness for C10 on three punches of two employees. -/
theorem summary_rows_wellformed_witness :
    1 ≤ (⟨"E1", "2024-01-02 07:30:00", "2024-01-02 09:00:00", 2⟩ : SummaryRow).total_punches ∧
    (∃ tx ∈ [(⟨"E1", "2024-01-02 09:00:00"⟩ : Tx), ⟨"E1", "2024-01-02 07:30:00"⟩,
        ⟨"E2", "2024-01-02 08:00:00"⟩],
      tx.emp_code = (⟨"E1", "2024-01-02 07:30:00", "2024-01-02 09:00:00", 2⟩ : SummaryRow).emp_code) ∧
    ∃ df dl, parseTS (⟨"E1", "2024-01-02 07:30:00", "2024-01-02 09:00:00", 2⟩ : SummaryRow).first_punch_time = some df ∧
      parseTS (⟨"E1", "2024-01-02 07:30:00", "2024-01-02 09:00:00", 2⟩ : SummaryRow).last_punch_time = some dl ∧
      dtLe df dl = true :=
  (summary_rows_wellformed
    [⟨"E1", "2024-01-02 09:00:00"⟩, ⟨"E1", "2024-01-02 07:30:00"⟩, ⟨"E2", "2024-01-02 08:00:00"⟩]
    [⟨"E1", "2024-01-02 07:30:00", "2024-01-02 09:00:00", 2⟩,
     ⟨"E2", "2024-01-02 08:00:00", "2024-01-02 08:00:00", 1⟩]
    rfl).1 _ (List.mem_cons_self _ _)

end Biotime
